import Mathlib

/-!
Verification of the forward-inference core of a small convolutional neural
network (`src/src/main.cu`).  Flat float buffers are modelled as functions
`Nat → ℚ` (exact arithmetic stands in for `float`, so "equal within
floating-point accumulation-order tolerance" becomes exact equality of the
ideal sums), and the sequential loop nests of the source are embedded as
left folds over `List.range`, one fold per loop, updating the buffer.
-/

namespace CNN

/-- A flat device/host buffer of scalars, addressed by linear offset. -/
abbrev Buf : Type := Nat → ℚ

/-- Store `v` at offset `i` of buffer `b`. -/
def Buf.set (b : Buf) (i : Nat) (v : ℚ) : Buf := fun j => if j = i then v else b j

/-- The all-zero buffer (`calloc` / `zeros<float>`). -/
def Buf.zero : Buf := fun _ => 0

/-- The ReLU clamp `(v < 0.0f) ? 0.0f : v` fused into several kernels. -/
def reluQ (v : ℚ) : ℚ := if v < 0 then 0 else v

@[simp] theorem Buf.set_self (b : Buf) (i : Nat) (v : ℚ) : b.set i v i = v := by
  simp [Buf.set]

theorem Buf.set_other (b : Buf) (i j : Nat) (v : ℚ) (h : j ≠ i) : b.set i v j = b j := by
  simp [Buf.set, h]

/-! ### Generic fold lemmas -/

/-- Folding `+` of a function over a list, as the source's accumulator loops do. -/
theorem foldl_add_eq_sum (f : Nat → ℚ) : ∀ (L : List Nat) (a : ℚ),
    L.foldl (fun s k => s + f k) a = a + (L.map f).sum := by
  intro L
  induction L with
  | nil => intro a; simp
  | cons x xs ih => intro a; simp [ih, add_assoc]

/-- Bridge between list-fold sums and `Finset.range` sums. -/
theorem listmap_sum (n : Nat) (f : Nat → ℚ) :
    ((List.range n).map f).sum = ∑ i in Finset.range n, f i := by
  induction n with
  | zero => simp
  | succ m ih => rw [List.range_succ, Finset.sum_range_succ]; simp [ih]

/-- Splitting a range sum at `a`. -/
theorem sum_range_split (f : Nat → ℚ) (a b : Nat) :
    ∑ k in Finset.range (a + b), f k
      = (∑ k in Finset.range a, f k) + ∑ d in Finset.range b, f (a + d) := by
  induction b with
  | zero => simp
  | succ m ih =>
    rw [show a + (m + 1) = (a + m) + 1 by omega, Finset.sum_range_succ, ih,
      Finset.sum_range_succ, add_assoc]

/-- A guarded range sum is a sum over the truncated range. -/
theorem sum_range_ite_lt (g : Nat → ℚ) (c : Nat) : ∀ T : Nat,
    (∑ d in Finset.range T, if d < c then g d else 0)
      = ∑ d in Finset.range (min T c), g d := by
  intro T
  induction T with
  | zero => simp
  | succ m ih =>
    rw [Finset.sum_range_succ, ih]
    by_cases hm : m < c
    · rw [if_pos hm, show min (m + 1) c = min m c + 1 by omega, Finset.sum_range_succ,
        show min m c = m by omega]
    · rw [if_neg hm, show min (m + 1) c = min m c by omega, add_zero]

/-- A range over a product decomposes into two nested ranges (row-major). -/
theorem sum_range_mul (f : Nat → ℚ) (b : Nat) : ∀ a : Nat,
    ∑ k in Finset.range (a * b), f k
      = ∑ i in Finset.range a, ∑ j in Finset.range b, f (i * b + j) := by
  intro a
  induction a with
  | zero => simp
  | succ m ih =>
    rw [show (m + 1) * b = m * b + b by ring, sum_range_split, ih, Finset.sum_range_succ]

/-- Uniqueness of the digit decomposition `a * d + r` with `r < d`. -/
theorem mul_add_inj {a a' d r r' : Nat} (h : a * d + r = a' * d + r')
    (hr : r < d) (hr' : r' < d) : a = a' ∧ r = r' := by
  constructor
  · rcases Nat.lt_trichotomy a a' with hlt | heq | hgt
    · exfalso
      have : a * d + d ≤ a' * d := by
        calc a * d + d = (a + 1) * d := by ring
        _ ≤ a' * d := Nat.mul_le_mul_right d hlt
      omega
    · exact heq
    · exfalso
      have : a' * d + d ≤ a * d := by
        calc a' * d + d = (a' + 1) * d := by ring
        _ ≤ a * d := Nat.mul_le_mul_right d hgt
      omega
  · have : a = a' := by
      rcases Nat.lt_trichotomy a a' with hlt | heq | hgt
      · exfalso
        have : a * d + d ≤ a' * d := by
          calc a * d + d = (a + 1) * d := by ring
          _ ≤ a' * d := Nat.mul_le_mul_right d hlt
        omega
      · exact heq
      · exfalso
        have : a' * d + d ≤ a * d := by
          calc a' * d + d = (a' + 1) * d := by ring
          _ ≤ a * d := Nat.mul_le_mul_right d hgt
        omega
    subst this
    omega

/-- Injectivity of the 4-D row-major output offset used by all kernels. -/
theorem offset4_inj {d1 d2 d3 i h w m i' h' w' m' : Nat}
    (heq : ((i * d1 + h) * d2 + w) * d3 + m = ((i' * d1 + h') * d2 + w') * d3 + m')
    (hh : h < d1) (hw : w < d2) (hm : m < d3)
    (hh' : h' < d1) (hw' : w' < d2) (hm' : m' < d3) :
    i = i' ∧ h = h' ∧ w = w' ∧ m = m' := by
  obtain ⟨h3, hm⟩ := mul_add_inj heq hm hm'
  obtain ⟨h2, hw⟩ := mul_add_inj h3 hw hw'
  obtain ⟨h1, hh⟩ := mul_add_inj h2 hh hh'
  exact ⟨h1, hh, hw, hm⟩

/-! ### Accumulation (`+=`) machinery

A buffer transformer `F` *adds* the increment field `δ` when `F Y` agrees with
`Y` plus `δ` at every offset, for every starting buffer `Y`.  The `+=` loop
nests of `conv_forward_valid` and `average_pool` are compositions of such
transformers, and their increment fields compose by pointwise sum. -/

def Adds (F : Buf → Buf) (δ : Nat → ℚ) : Prop := ∀ (Y : Buf) (pos : Nat), F Y pos = Y pos + δ pos

theorem adds_set_accum (o : Nat) (v : ℚ) :
    Adds (fun Y => Y.set o (Y o + v)) (fun pos => if pos = o then v else 0) := by
  intro Y pos
  by_cases h : pos = o
  · subst h; simp [Buf.set]
  · simp [Buf.set, h]

theorem adds_foldl {ι : Type} (L : List ι) (g : ι → Buf → Buf) (δ : ι → Nat → ℚ)
    (h : ∀ i ∈ L, Adds (g i) (δ i)) :
    Adds (fun Y => L.foldl (fun Y i => g i Y) Y) (fun pos => (L.map (fun i => δ i pos)).sum) := by
  induction L with
  | nil => intro Y pos; simp
  | cons x xs ih =>
    intro Y pos
    have hx := h x (List.mem_cons_self x xs)
    have hxs := ih (fun i hi => h i (List.mem_cons_of_mem x hi))
    simp only [List.foldl_cons, List.map_cons, List.sum_cons]
    have h1 := hxs (g x Y) pos
    simp only [] at h1
    rw [h1, hx Y pos]
    ring

theorem adds_congr {F : Buf → Buf} {δ δ' : Nat → ℚ} (h : Adds F δ)
    (heq : ∀ pos, δ pos = δ' pos) : Adds F δ' := by
  intro Y pos; rw [h Y pos, heq pos]

/-! ### Tensor dimensions and row-major offsets -/

/-- A 4-entry dimension array, as the `int dims[4]` arrays of the source. -/
structure Dims4 where
  d0 : Nat
  d1 : Nat
  d2 : Nat
  d3 : Nat

/-- The output offset `((i * ydims[1] + h) * ydims[2] + w) * ydims[3] + m`
used by `conv_forward_valid`, `average_pool` and the CUDA kernels. -/
def yoff (d : Dims4) (i h w m : Nat) : Nat := ((i * d.d1 + h) * d.d2 + w) * d.d3 + m

/-- The input offset `i*xdims[1]*xdims[2]*xdims[3] + r*xdims[2]*xdims[3] + s*xdims[3] + c`. -/
def xoffC (d : Dims4) (i r s c : Nat) : Nat :=
  i * d.d1 * d.d2 * d.d3 + r * d.d2 * d.d3 + s * d.d3 + c

/-- The filter offset `p*wdims[1]*wdims[2]*wdims[3] + q*wdims[2]*wdims[3] + c*wdims[3] + m`. -/
def woff (d : Dims4) (p q c m : Nat) : Nat :=
  p * d.d1 * d.d2 * d.d3 + q * d.d2 * d.d3 + c * d.d3 + m

/-! ### Direct-form convolution (`conv_forward_valid`, main.cu sequential variant) -/

/-- Embedding of `conv_forward_valid`: six (seven counting channels) nested
loops over `(i, m, w, h, p, q, c)` accumulating `X[xoffset] * W[woffset]`
into `Y[yoffset]` by read-add-write. -/
def conv_forward_valid (X : Buf) (xdims : Dims4) (W : Buf) (wdims : Dims4)
    (Y : Buf) (ydims : Dims4) : Buf :=
  (List.range ydims.d0).foldl (fun Y i =>
    (List.range ydims.d3).foldl (fun Y m =>
      (List.range ydims.d2).foldl (fun Y w =>
        (List.range ydims.d1).foldl (fun Y h =>
          (List.range wdims.d0).foldl (fun Y p =>
            (List.range wdims.d1).foldl (fun Y q =>
              (List.range wdims.d2).foldl (fun Y c =>
                Y.set (yoff ydims i h w m)
                  (Y (yoff ydims i h w m)
                    + X (xoffC xdims i (h + p) (w + q) c) * W (woff wdims p q c m)))
                Y) Y) Y) Y) Y) Y) Y

/-- The triple sum `Σ_p Σ_q Σ_c X[n,h+p,w+q,c] · W[p,q,c,m]` of the contract. -/
def convSum (X : Buf) (xd : Dims4) (W : Buf) (wd : Dims4) (i h w m : Nat) : ℚ :=
  ∑ p in Finset.range wd.d0, ∑ q in Finset.range wd.d1, ∑ c in Finset.range wd.d2,
    X (xoffC xd i (h + p) (w + q) c) * W (woff wd p q c m)

theorem inner3_adds (X W : Buf) (xd wd yd : Dims4) (i h w m : Nat) :
    Adds (fun Y =>
        (List.range wd.d0).foldl (fun Y p =>
          (List.range wd.d1).foldl (fun Y q =>
            (List.range wd.d2).foldl (fun Y c =>
              Y.set (yoff yd i h w m)
                (Y (yoff yd i h w m)
                  + X (xoffC xd i (h + p) (w + q) c) * W (woff wd p q c m)))
              Y) Y) Y)
      (fun pos => if pos = yoff yd i h w m then convSum X xd W wd i h w m else 0) := by
  have h1 : Adds (fun Y =>
      (List.range wd.d0).foldl (fun Y p =>
        (List.range wd.d1).foldl (fun Y q =>
          (List.range wd.d2).foldl (fun Y c =>
            Y.set (yoff yd i h w m)
              (Y (yoff yd i h w m)
                + X (xoffC xd i (h + p) (w + q) c) * W (woff wd p q c m)))
            Y) Y) Y)
      (fun pos => ((List.range wd.d0).map (fun p =>
        ((List.range wd.d1).map (fun q =>
          ((List.range wd.d2).map (fun c =>
            if pos = yoff yd i h w m
            then X (xoffC xd i (h + p) (w + q) c) * W (woff wd p q c m) else 0)).sum)).sum)).sum) := by
    apply adds_foldl
    intro p _
    apply adds_foldl
    intro q _
    apply adds_foldl
    intro c _
    exact adds_set_accum _ _
  refine adds_congr h1 (fun pos => ?_)
  by_cases hp : pos = yoff yd i h w m
  · simp [hp, listmap_sum, convSum]
  · simp [hp]

theorem conv_adds (X W : Buf) (xd wd yd : Dims4) :
    Adds (fun Y => conv_forward_valid X xd W wd Y yd)
      (fun pos => ((List.range yd.d0).map (fun i =>
        ((List.range yd.d3).map (fun m =>
          ((List.range yd.d2).map (fun w =>
            ((List.range yd.d1).map (fun h =>
              if pos = yoff yd i h w m then convSum X xd W wd i h w m else 0)).sum)).sum)).sum)).sum) := by
  unfold conv_forward_valid
  apply adds_foldl
  intro i _
  apply adds_foldl
  intro m _
  apply adds_foldl
  intro w _
  apply adds_foldl
  intro h _
  exact inner3_adds X W xd wd yd i h w m

/-- Collapsing the outer quadruple sum of indicator terms at an in-range
target offset: row-major offsets are injective, so exactly one term survives. -/
theorem collapse4 (yd : Dims4) (S : Nat → Nat → Nat → Nat → ℚ) {n h0 w0 m0 : Nat}
    (hn : n < yd.d0) (hh : h0 < yd.d1) (hw : w0 < yd.d2) (hm : m0 < yd.d3) :
    ((List.range yd.d0).map (fun i =>
      ((List.range yd.d3).map (fun m =>
        ((List.range yd.d2).map (fun w =>
          ((List.range yd.d1).map (fun h =>
            if yoff yd n h0 w0 m0 = yoff yd i h w m then S i h w m else 0)).sum)).sum)).sum)).sum
      = S n h0 w0 m0 := by
  simp only [listmap_sum]
  rw [Finset.sum_eq_single_of_mem n (Finset.mem_range.mpr hn)]
  · rw [Finset.sum_eq_single_of_mem m0 (Finset.mem_range.mpr hm)]
    · rw [Finset.sum_eq_single_of_mem w0 (Finset.mem_range.mpr hw)]
      · rw [Finset.sum_eq_single_of_mem h0 (Finset.mem_range.mpr hh)]
        · simp
        · intro b hb hne
          rw [if_neg]
          intro heq
          simp only [yoff] at heq
          exact hne (offset4_inj heq hh hw hm (Finset.mem_range.mp hb) hw hm).2.1.symm
      · intro b hb hne
        apply Finset.sum_eq_zero
        intro h hmemh
        rw [if_neg]
        intro heq
        simp only [yoff] at heq
        exact hne (offset4_inj heq hh hw hm (Finset.mem_range.mp hmemh)
          (Finset.mem_range.mp hb) hm).2.2.1.symm
    · intro b hb hne
      apply Finset.sum_eq_zero
      intro w hmemw
      apply Finset.sum_eq_zero
      intro h hmemh
      rw [if_neg]
      intro heq
      simp only [yoff] at heq
      exact hne (offset4_inj heq hh hw hm (Finset.mem_range.mp hmemh)
        (Finset.mem_range.mp hmemw) (Finset.mem_range.mp hb)).2.2.2.symm
  · intro b hb hne
    apply Finset.sum_eq_zero
    intro m hmemm
    apply Finset.sum_eq_zero
    intro w hmemw
    apply Finset.sum_eq_zero
    intro h hmemh
    rw [if_neg]
    intro heq
    simp only [yoff] at heq
    exact hne (offset4_inj heq hh hw hm (Finset.mem_range.mp hmemh)
      (Finset.mem_range.mp hmemw) (Finset.mem_range.mp hmemm)).1.symm

/-- Value of the direct convolution at an in-range offset, for any starting buffer. -/
theorem conv_forward_valid_at (X W Y : Buf) (xd wd yd : Dims4) {n h w m : Nat}
    (hn : n < yd.d0) (hh : h < yd.d1) (hw : w < yd.d2) (hm : m < yd.d3) :
    conv_forward_valid X xd W wd Y yd (yoff yd n h w m)
      = Y (yoff yd n h w m) + convSum X xd W wd n h w m := by
  have := conv_adds X W xd wd yd Y (yoff yd n h w m)
  simp only [] at this
  rw [this, collapse4 yd (fun i h w m => convSum X xd W wd i h w m) hn hh hw hm]

/-! ### Sequential average pool (`average_pool`, main.cu sequential variant) -/

/-- Embedding of `average_pool`: loops `(i, m, w, h, p, q)` accumulating
`X[xoffset] / (1.0f * pool_size * pool_size)` into `Y[yoffset]`. -/
def average_pool (X : Buf) (xdims : Dims4) (pool_size : Nat) (Y : Buf) (ydims : Dims4) : Buf :=
  (List.range ydims.d0).foldl (fun Y i =>
    (List.range ydims.d3).foldl (fun Y m =>
      (List.range ydims.d2).foldl (fun Y w =>
        (List.range ydims.d1).foldl (fun Y h =>
          (List.range pool_size).foldl (fun Y p =>
            (List.range pool_size).foldl (fun Y q =>
              Y.set (yoff ydims i h w m)
                (Y (yoff ydims i h w m)
                  + X (xoffC xdims i (pool_size * h + p) (pool_size * w + q) m)
                      / ((1 : ℚ) * pool_size * pool_size)))
              Y) Y) Y) Y) Y) Y

/-- The window sum `Σ_p Σ_q X[n, f·h+p, f·w+q, c]` of the pooling contract. -/
def poolSum (X : Buf) (xd : Dims4) (f : Nat) (i h w m : Nat) : ℚ :=
  ∑ p in Finset.range f, ∑ q in Finset.range f,
    X (xoffC xd i (f * h + p) (f * w + q) m)

theorem inner2_adds (X : Buf) (xd yd : Dims4) (f : Nat) (i h w m : Nat) :
    Adds (fun Y =>
        (List.range f).foldl (fun Y p =>
          (List.range f).foldl (fun Y q =>
            Y.set (yoff yd i h w m)
              (Y (yoff yd i h w m)
                + X (xoffC xd i (f * h + p) (f * w + q) m) / ((1 : ℚ) * f * f)))
            Y) Y)
      (fun pos => if pos = yoff yd i h w m
        then poolSum X xd f i h w m / ((f : ℚ) * f) else 0) := by
  have h1 : Adds (fun Y =>
      (List.range f).foldl (fun Y p =>
        (List.range f).foldl (fun Y q =>
          Y.set (yoff yd i h w m)
            (Y (yoff yd i h w m)
              + X (xoffC xd i (f * h + p) (f * w + q) m) / ((1 : ℚ) * f * f)))
          Y) Y)
      (fun pos => ((List.range f).map (fun p =>
        ((List.range f).map (fun q =>
          if pos = yoff yd i h w m
          then X (xoffC xd i (f * h + p) (f * w + q) m) / ((1 : ℚ) * f * f) else 0)).sum)).sum) := by
    apply adds_foldl
    intro p _
    apply adds_foldl
    intro q _
    exact adds_set_accum _ _
  refine adds_congr h1 (fun pos => ?_)
  by_cases hp : pos = yoff yd i h w m
  · simp [hp, listmap_sum, poolSum, Finset.sum_div, one_mul]
  · simp [hp]

theorem pool_adds (X : Buf) (xd yd : Dims4) (f : Nat) :
    Adds (fun Y => average_pool X xd f Y yd)
      (fun pos => ((List.range yd.d0).map (fun i =>
        ((List.range yd.d3).map (fun m =>
          ((List.range yd.d2).map (fun w =>
            ((List.range yd.d1).map (fun h =>
              if pos = yoff yd i h w m
              then poolSum X xd f i h w m / ((f : ℚ) * f) else 0)).sum)).sum)).sum)).sum) := by
  unfold average_pool
  apply adds_foldl
  intro i _
  apply adds_foldl
  intro m _
  apply adds_foldl
  intro w _
  apply adds_foldl
  intro h _
  exact inner2_adds X xd yd f i h w m

/-- Value of the sequential average pool at an in-range offset, any starting buffer. -/
theorem average_pool_at (X Y : Buf) (xd yd : Dims4) (f : Nat) {n h w m : Nat}
    (hn : n < yd.d0) (hh : h < yd.d1) (hw : w < yd.d2) (hm : m < yd.d3) :
    average_pool X xd f Y yd (yoff yd n h w m)
      = Y (yoff yd n h w m) + poolSum X xd f n h w m / ((f : ℚ) * f) := by
  have := pool_adds X xd yd f Y (yoff yd n h w m)
  simp only [] at this
  rw [this, collapse4 yd (fun i h w m => poolSum X xd f i h w m / ((f : ℚ) * f)) hn hh hw hm]

/-! ### Concrete fixtures for witnesses -/

/-- 4×4 single-channel row-major input `[[1,2,3,4],[5,6,7,8],[9,10,11,12],[13,14,15,16]]`. -/
def X4 : Buf := fun i => (i : ℚ) + 1

/-- Constant input buffer with value 2. -/
def cX1 : Buf := fun _ => 2

/-- Constant filter buffer with value 3. -/
def cW1 : Buf := fun _ => 3

/-- Constant (non-zero) initial output buffer with value 5. -/
def cY5 : Buf := fun _ => 5

/-- C1: for input `X` of shape N×H×W×C, filter `W` of shape K×K×C×M and
zero-initialized output of shape N×(H−K+1)×(W−K+1)×M, the direct-form
convolution writes `Y[n,h,w,m] = Σ_p Σ_q Σ_c X[n,h+p,w+q,c]·W[p,q,c,m]`
under row-major addressing with the channel index varying fastest. -/
theorem C1_conv_direct_correct (X W : Buf) (N H Wd C K M : Nat) {n h w m : Nat}
    (hn : n < N) (hh : h < H - K + 1) (hw : w < Wd - K + 1) (hm : m < M) :
    conv_forward_valid X ⟨N, H, Wd, C⟩ W ⟨K, K, C, M⟩ Buf.zero ⟨N, H - K + 1, Wd - K + 1, M⟩
        (yoff ⟨N, H - K + 1, Wd - K + 1, M⟩ n h w m)
      = convSum X ⟨N, H, Wd, C⟩ W ⟨K, K, C, M⟩ n h w m := by
  rw [conv_forward_valid_at X W Buf.zero ⟨N, H, Wd, C⟩ ⟨K, K, C, M⟩
    ⟨N, H - K + 1, Wd - K + 1, M⟩ hn hh hw hm]
  simp [Buf.zero]

/-- Witness for C1 at the 1×1×1×1 instance with X ≡ 2, W ≡ 3. -/
theorem C1_conv_direct_correct_witness :
    conv_forward_valid cX1 ⟨1, 1, 1, 1⟩ cW1 ⟨1, 1, 1, 1⟩ Buf.zero ⟨1, 1 - 1 + 1, 1 - 1 + 1, 1⟩
        (yoff ⟨1, 1 - 1 + 1, 1 - 1 + 1, 1⟩ 0 0 0 0)
      = convSum cX1 ⟨1, 1, 1, 1⟩ cW1 ⟨1, 1, 1, 1⟩ 0 0 0 0
      ∧ convSum cX1 ⟨1, 1, 1, 1⟩ cW1 ⟨1, 1, 1, 1⟩ 0 0 0 0 = 6 :=
  ⟨C1_conv_direct_correct cX1 cW1 1 1 1 1 1 1 (by norm_num) (by norm_num) (by norm_num)
      (by norm_num),
   by norm_num [convSum, cX1, cW1, Finset.sum_range_succ]⟩

/-- C5: for input N×H×W×C with H = f·H', W = f·W' and zero-initialized output
N×H'×W'×C, the average pool writes the mean of each non-overlapping f×f
window: `Y[n,h,w,c] = (1/f²)·Σ_p Σ_q X[n, f·h+p, f·w+q, c]`. -/
theorem C5_average_pool_correct (X : Buf) (N Ho Wo C f : Nat) {n h w c : Nat}
    (hn : n < N) (hh : h < Ho) (hw : w < Wo) (hc : c < C) :
    average_pool X ⟨N, f * Ho, f * Wo, C⟩ f Buf.zero ⟨N, Ho, Wo, C⟩
        (yoff ⟨N, Ho, Wo, C⟩ n h w c)
      = (1 / ((f : ℚ) * f)) * poolSum X ⟨N, f * Ho, f * Wo, C⟩ f n h w c := by
  rw [average_pool_at X Buf.zero ⟨N, f * Ho, f * Wo, C⟩ ⟨N, Ho, Wo, C⟩ f hn hh hw hc]
  simp [Buf.zero]
  ring

/-- Witness for C5: f = 2 on the 4×4 input `[[1..4],[5..8],[9..12],[13..16]]`
produces exactly `[[3.5, 5.5], [11.5, 13.5]]`. -/
theorem C5_average_pool_correct_witness :
    average_pool X4 ⟨1, 2 * 2, 2 * 2, 1⟩ 2 Buf.zero ⟨1, 2, 2, 1⟩ (yoff ⟨1, 2, 2, 1⟩ 0 0 0 0)
        = 7 / 2
      ∧ average_pool X4 ⟨1, 2 * 2, 2 * 2, 1⟩ 2 Buf.zero ⟨1, 2, 2, 1⟩ (yoff ⟨1, 2, 2, 1⟩ 0 0 1 0)
        = 11 / 2
      ∧ average_pool X4 ⟨1, 2 * 2, 2 * 2, 1⟩ 2 Buf.zero ⟨1, 2, 2, 1⟩ (yoff ⟨1, 2, 2, 1⟩ 0 1 0 0)
        = 23 / 2
      ∧ average_pool X4 ⟨1, 2 * 2, 2 * 2, 1⟩ 2 Buf.zero ⟨1, 2, 2, 1⟩ (yoff ⟨1, 2, 2, 1⟩ 0 1 1 0)
        = 27 / 2 :=
  ⟨(C5_average_pool_correct X4 1 2 2 1 2 (by norm_num) (by norm_num) (by norm_num)
      (by norm_num)).trans (by norm_num [poolSum, X4, xoffC, Finset.sum_range_succ]),
   (C5_average_pool_correct X4 1 2 2 1 2 (by norm_num) (by norm_num) (by norm_num)
      (by norm_num)).trans (by norm_num [poolSum, X4, xoffC, Finset.sum_range_succ]),
   (C5_average_pool_correct X4 1 2 2 1 2 (by norm_num) (by norm_num) (by norm_num)
      (by norm_num)).trans (by norm_num [poolSum, X4, xoffC, Finset.sum_range_succ]),
   (C5_average_pool_correct X4 1 2 2 1 2 (by norm_num) (by norm_num) (by norm_num)
      (by norm_num)).trans (by norm_num [poolSum, X4, xoffC, Finset.sum_range_succ])⟩

/-- C8: the direct convolution and the sequential average pool accumulate by
read-add-write, so from an arbitrary initial output buffer they produce the
initial value plus the contractual result elementwise (hence the contractual
result exactly when the buffer starts at zero). -/
theorem C8_read_add_write (X W Xp Y0 Y0' : Buf) (xd wd yd xd' yd' : Dims4) (f : Nat)
    {n h w m n' h' w' m' : Nat}
    (hn : n < yd.d0) (hh : h < yd.d1) (hw : w < yd.d2) (hm : m < yd.d3)
    (hn' : n' < yd'.d0) (hh' : h' < yd'.d1) (hw' : w' < yd'.d2) (hm' : m' < yd'.d3) :
    conv_forward_valid X xd W wd Y0 yd (yoff yd n h w m)
        = Y0 (yoff yd n h w m) + convSum X xd W wd n h w m
      ∧ average_pool Xp xd' f Y0' yd' (yoff yd' n' h' w' m')
        = Y0' (yoff yd' n' h' w' m') + poolSum Xp xd' f n' h' w' m' / ((f : ℚ) * f) :=
  ⟨conv_forward_valid_at X W Y0 xd wd yd hn hh hw hm,
   average_pool_at Xp Y0' xd' yd' f hn' hh' hw' hm'⟩

/-- Witness for C8 at a 1×1×1×1 instance with a non-zero initial buffer Y ≡ 5. -/
theorem C8_read_add_write_witness :
    conv_forward_valid cX1 ⟨1, 1, 1, 1⟩ cW1 ⟨1, 1, 1, 1⟩ cY5 ⟨1, 1, 1, 1⟩
        (yoff ⟨1, 1, 1, 1⟩ 0 0 0 0)
      = cY5 (yoff ⟨1, 1, 1, 1⟩ 0 0 0 0) + convSum cX1 ⟨1, 1, 1, 1⟩ cW1 ⟨1, 1, 1, 1⟩ 0 0 0 0
      ∧ average_pool X4 ⟨1, 1, 1, 1⟩ 1 cY5 ⟨1, 1, 1, 1⟩ (yoff ⟨1, 1, 1, 1⟩ 0 0 0 0)
        = cY5 (yoff ⟨1, 1, 1, 1⟩ 0 0 0 0) + poolSum X4 ⟨1, 1, 1, 1⟩ 1 0 0 0 0 / ((1 : ℚ) * 1) :=
  C8_read_add_write cX1 cW1 X4 cY5 cY5 ⟨1, 1, 1, 1⟩ ⟨1, 1, 1, 1⟩ ⟨1, 1, 1, 1⟩ ⟨1, 1, 1, 1⟩
    ⟨1, 1, 1, 1⟩ 1 (by norm_num) (by norm_num) (by norm_num) (by norm_num) (by norm_num)
    (by norm_num) (by norm_num) (by norm_num)

/-! ### Write-once machinery

The remaining operators write each output element exactly once.  A fold
*preserves* a value at `pos` when every step keeps it, and *computes* it when
some step establishes it and all steps keep it. -/

theorem foldl_preserves {ι α : Type} (L : List ι) (f : ι → (Nat → α) → (Nat → α))
    (pos : Nat) (v : α)
    (hstep : ∀ j ∈ L, ∀ B : Nat → α, B pos = v → f j B pos = v) :
    ∀ B : Nat → α, B pos = v → (L.foldl (fun B j => f j B) B) pos = v := by
  induction L with
  | nil => intro B hB; simpa using hB
  | cons x xs ih =>
    intro B hB
    simp only [List.foldl_cons]
    exact ih (fun j hj => hstep j (List.mem_cons_of_mem x hj)) (f x B)
      (hstep x (List.mem_cons_self x xs) B hB)

theorem foldl_computes {ι α : Type} (L : List ι) (f : ι → (Nat → α) → (Nat → α))
    (pos : Nat) (v : α)
    (hstep : ∀ j ∈ L, ∀ B : Nat → α, B pos = v → f j B pos = v)
    (hex : ∃ i ∈ L, ∀ B : Nat → α, f i B pos = v) :
    ∀ B : Nat → α, (L.foldl (fun B j => f j B) B) pos = v := by
  induction L with
  | nil =>
    rcases hex with ⟨i, hi, _⟩
    exact absurd hi (List.not_mem_nil i)
  | cons x xs ih =>
    intro B
    simp only [List.foldl_cons]
    rcases hex with ⟨i, hi, hv⟩
    rcases List.mem_cons.mp hi with rfl | hmem
    · exact foldl_preserves xs f pos v (fun j hj => hstep j (List.mem_cons_of_mem _ hj))
        (f i B) (hv B)
    · exact ih (fun j hj => hstep j (List.mem_cons_of_mem x hj)) ⟨i, hmem, hv⟩ (f x B)

/-- Value written by a two-level loop nest that stores `v i' j'` at the
row-major offset `i' * J + j'`. -/
theorem grid2_set_at (rows J : Nat) (v : Nat → Nat → ℚ) {i j : Nat}
    (hi : i < rows) (hj : j < J) (Y : Buf) :
    ((List.range rows).foldl (fun Y i' =>
        (List.range J).foldl (fun Y j' => Buf.set Y (i' * J + j') (v i' j')) Y) Y) (i * J + j)
      = v i j := by
  refine foldl_computes (List.range rows)
    (fun i' Y => (List.range J).foldl (fun Y j' => Buf.set Y (i' * J + j') (v i' j')) Y)
    (i * J + j) (v i j) ?_ ?_ Y
  · intro i' _ B hB
    refine foldl_preserves (List.range J)
      (fun j' Y => Buf.set Y (i' * J + j') (v i' j')) (i * J + j) (v i j) ?_ B hB
    intro j' hj' B' hB'
    by_cases hp : i * J + j = i' * J + j'
    · obtain ⟨hii, hjj⟩ := mul_add_inj hp hj (Finset.mem_range.mp (by
        simpa using List.mem_range.mp hj'))
      subst hii
      subst hjj
      simp [Buf.set]
    · simpa [Buf.set, hp] using hB'
  · refine ⟨i, List.mem_range.mpr hi, fun B => ?_⟩
    refine foldl_computes (List.range J)
      (fun j' Y => Buf.set Y (i * J + j') (v i j')) (i * J + j) (v i j) ?_ ?_ B
    · intro j' hj' B' hB'
      by_cases hp : i * J + j = i * J + j'
      · have hjj : j = j' := by omega
        subst hjj
        simp [Buf.set]
      · simpa [Buf.set, hp] using hB'
    · exact ⟨j, List.mem_range.mpr hj, fun B' => by simp [Buf.set]⟩

/-! ### Fully-connected operators -/

/-- A 2-entry dimension array (`int dims[2]`). -/
structure Dims2 where
  d0 : Nat
  d1 : Nat

/-- Embedding of the sequential-variant `fully_forward` (no activation):
`Y[i*wdims[1]+j] = Σ_k X[i*xdims[1]+k] * W[k*wdims[1]+j]`. -/
def fully_forward (X : Buf) (xdims : Dims2) (W : Buf) (wdims : Dims2)
    (Y : Buf) (ydims : Dims2) : Buf :=
  (List.range xdims.d0).foldl (fun Y i =>
    (List.range wdims.d1).foldl (fun Y j =>
      Buf.set Y (i * wdims.d1 + j)
        ((List.range xdims.d1).foldl
          (fun sum k => sum + X (i * xdims.d1 + k) * W (k * wdims.d1 + j)) 0)) Y) Y

/-- Embedding of the CUDA-variant `fully_forward`, which clamps the sum:
`Y[i*wdims[1]+j] = (sum < 0.0f) ? 0.0f : sum`. -/
def fully_forward_relu (X : Buf) (xdims : Dims2) (W : Buf) (wdims : Dims2)
    (Y : Buf) (ydims : Dims2) : Buf :=
  (List.range xdims.d0).foldl (fun Y i =>
    (List.range wdims.d1).foldl (fun Y j =>
      Buf.set Y (i * wdims.d1 + j)
        (reluQ ((List.range xdims.d1).foldl
          (fun sum k => sum + X (i * xdims.d1 + k) * W (k * wdims.d1 + j)) 0))) Y) Y

/-- The dense dot product `Σ_k X[i,k]·W[k,j]` of the contract. -/
def dotSum (X : Buf) (xd : Dims2) (W : Buf) (wd : Dims2) (i j : Nat) : ℚ :=
  ∑ k in Finset.range xd.d1, X (i * xd.d1 + k) * W (k * wd.d1 + j)

theorem fully_forward_at (X W Y : Buf) (xd wd yd : Dims2) {i j : Nat}
    (hi : i < xd.d0) (hj : j < wd.d1) :
    fully_forward X xd W wd Y yd (i * wd.d1 + j) = dotSum X xd W wd i j := by
  unfold fully_forward
  rw [grid2_set_at xd.d0 wd.d1
    (fun i j => (List.range xd.d1).foldl
      (fun sum k => sum + X (i * xd.d1 + k) * W (k * wd.d1 + j)) 0) hi hj Y]
  rw [foldl_add_eq_sum, listmap_sum, dotSum, zero_add]

theorem fully_forward_relu_at (X W Y : Buf) (xd wd yd : Dims2) {i j : Nat}
    (hi : i < xd.d0) (hj : j < wd.d1) :
    fully_forward_relu X xd W wd Y yd (i * wd.d1 + j) = reluQ (dotSum X xd W wd i j) := by
  unfold fully_forward_relu
  rw [grid2_set_at xd.d0 wd.d1
    (fun i j => reluQ ((List.range xd.d1).foldl
      (fun sum k => sum + X (i * xd.d1 + k) * W (k * wd.d1 + j)) 0)) hi hj Y]
  rw [foldl_add_eq_sum, listmap_sum, dotSum, zero_add]

/-- Pointwise sum of two weight buffers (`W1 + W2` of the linearity property). -/
def bufAdd (a b : Buf) : Buf := fun k => a k + b k

/-- Constant buffer with value 1. -/
def cOne : Buf := fun _ => 1

/-- Constant buffer with value −1. -/
def cNegOne : Buf := fun _ => -1

/-- Counterexample to C4 as stated: the CUDA-variant fully-connected operator
(`fully_forward` at main.cu:408–420) fuses a ReLU clamp, so it is not linear
in the weights: at X = [1], W1 = [−1], W2 = [1] it gives 0 ≠ 0 + 1. -/
theorem C4_counterexample :
    ¬ (fully_forward_relu cOne ⟨1, 1⟩ (bufAdd cNegOne cOne) ⟨1, 1⟩ Buf.zero ⟨1, 1⟩ 0
        = fully_forward_relu cOne ⟨1, 1⟩ cNegOne ⟨1, 1⟩ Buf.zero ⟨1, 1⟩ 0
          + fully_forward_relu cOne ⟨1, 1⟩ cOne ⟨1, 1⟩ Buf.zero ⟨1, 1⟩ 0) := by
  norm_num [fully_forward_relu, Buf.set, Buf.zero, reluQ, bufAdd, cOne, cNegOne,
    show List.range 1 = [0] from rfl]

/-- C4 (amended): the sequential-variant fully-connected operator computes
`Y[i,j] = Σ_k X[i,k]·W[k,j]` with no bias and no fused activation and is
linear in the weights; the CUDA variant instead computes
`max(0, Σ_k X[i,k]·W[k,j])` (fused ReLU) and is not linear. -/
theorem C4_fully_forward_linear (X W1 W2 Y : Buf) (xd wd yd : Dims2) {i j : Nat}
    (hi : i < xd.d0) (hj : j < wd.d1) :
    fully_forward X xd W1 wd Y yd (i * wd.d1 + j) = dotSum X xd W1 wd i j
    ∧ fully_forward X xd (bufAdd W1 W2) wd Y yd (i * wd.d1 + j)
        = fully_forward X xd W1 wd Y yd (i * wd.d1 + j)
          + fully_forward X xd W2 wd Y yd (i * wd.d1 + j)
    ∧ fully_forward_relu X xd W1 wd Y yd (i * wd.d1 + j) = reluQ (dotSum X xd W1 wd i j) := by
  refine ⟨fully_forward_at X W1 Y xd wd yd hi hj, ?_, fully_forward_relu_at X W1 Y xd wd yd hi hj⟩
  rw [fully_forward_at X (bufAdd W1 W2) Y xd wd yd hi hj,
    fully_forward_at X W1 Y xd wd yd hi hj, fully_forward_at X W2 Y xd wd yd hi hj]
  simp [dotSum, bufAdd, mul_add, Finset.sum_add_distrib]

/-- Witness for C4 at the 1×1 instance X = [1], W1 = [−1], W2 = [1]. -/
theorem C4_fully_forward_linear_witness :
    fully_forward cOne ⟨1, 1⟩ cNegOne ⟨1, 1⟩ Buf.zero ⟨1, 1⟩ (0 * 1 + 0)
        = dotSum cOne ⟨1, 1⟩ cNegOne ⟨1, 1⟩ 0 0
    ∧ fully_forward cOne ⟨1, 1⟩ (bufAdd cNegOne cOne) ⟨1, 1⟩ Buf.zero ⟨1, 1⟩ (0 * 1 + 0)
        = fully_forward cOne ⟨1, 1⟩ cNegOne ⟨1, 1⟩ Buf.zero ⟨1, 1⟩ (0 * 1 + 0)
          + fully_forward cOne ⟨1, 1⟩ cOne ⟨1, 1⟩ Buf.zero ⟨1, 1⟩ (0 * 1 + 0)
    ∧ fully_forward_relu cOne ⟨1, 1⟩ cNegOne ⟨1, 1⟩ Buf.zero ⟨1, 1⟩ (0 * 1 + 0)
        = reluQ (dotSum cOne ⟨1, 1⟩ cNegOne ⟨1, 1⟩ 0 0) :=
  C4_fully_forward_linear cOne cNegOne cOne Buf.zero ⟨1, 1⟩ ⟨1, 1⟩ ⟨1, 1⟩
    (by norm_num) (by norm_num)

/-- C10: the CUDA-path fully-connected operator clamps each sum at zero
before writing, so every output element equals `max(0, Σ_k X[i,k]·W[k,j])`
and is nonnegative; in particular the fc2 score matrix handed to `argmax`
in the CUDA pipeline has no negative entry. -/
theorem C10_fully_forward_relu_nonneg (X W Y : Buf) (xd wd yd : Dims2) {i j : Nat}
    (hi : i < xd.d0) (hj : j < wd.d1) :
    fully_forward_relu X xd W wd Y yd (i * wd.d1 + j) = reluQ (dotSum X xd W wd i j)
    ∧ 0 ≤ fully_forward_relu X xd W wd Y yd (i * wd.d1 + j) := by
  have h := fully_forward_relu_at X W Y xd wd yd hi hj
  refine ⟨h, ?_⟩
  rw [h]
  unfold reluQ
  by_cases hc : dotSum X xd W wd i j < 0
  · simp [if_pos hc]
  · rw [if_neg hc]
    exact le_of_not_lt hc

/-- Witness for C10 at a 1×1 instance whose raw dot product is negative. -/
theorem C10_fully_forward_relu_nonneg_witness :
    fully_forward_relu cOne ⟨1, 1⟩ cNegOne ⟨1, 1⟩ Buf.zero ⟨1, 1⟩ (0 * 1 + 0)
        = reluQ (dotSum cOne ⟨1, 1⟩ cNegOne ⟨1, 1⟩ 0 0)
    ∧ 0 ≤ fully_forward_relu cOne ⟨1, 1⟩ cNegOne ⟨1, 1⟩ Buf.zero ⟨1, 1⟩ (0 * 1 + 0) :=
  C10_fully_forward_relu_nonneg cOne cNegOne Buf.zero ⟨1, 1⟩ ⟨1, 1⟩ ⟨1, 1⟩
    (by norm_num) (by norm_num)

/-! ### Argmax classifier -/

/-- An `int` buffer of predicted indices. -/
abbrev IBuf : Type := Nat → Nat

/-- Store `v` at offset `i` of index buffer `b`. -/
def IBuf.set (b : IBuf) (i v : Nat) : IBuf := fun j => if j = i then v else b j

/-- The per-row scan of `argmax`: starting from `max_idx = 0`,
`max = X[i*cols]`, replace the pair whenever `elem > max` (strict). -/
def argmaxRow (X : Buf) (cols base : Nat) : Nat × ℚ :=
  (List.range cols).foldl
    (fun acc j => if X (base + j) > acc.2 then (j, X (base + j)) else acc) (0, X base)

/-- Embedding of `argmax`: `Y[i] = max_idx` of row `i`. -/
def argmax (X : Buf) (xdims : Dims2) (Y : IBuf) : IBuf :=
  (List.range xdims.d0).foldl (fun Y i =>
    IBuf.set Y i (argmaxRow X xdims.d1 (i * xdims.d1)).1) Y

theorem argmaxRow_invariant (X : Buf) (base : Nat) : ∀ n : Nat,
    ((argmaxRow X n base).1 = 0 ∨ (argmaxRow X n base).1 < n)
    ∧ (argmaxRow X n base).2 = X (base + (argmaxRow X n base).1)
    ∧ (∀ j < n, X (base + j) ≤ (argmaxRow X n base).2)
    ∧ (∀ j < (argmaxRow X n base).1, X (base + j) < (argmaxRow X n base).2) := by
  intro n
  induction n with
  | zero =>
    refine ⟨Or.inl (by simp [argmaxRow]), by simp [argmaxRow], ?_, ?_⟩
    · intro j hj
      omega
    · intro j hj
      have h0 : (argmaxRow X 0 base).1 = 0 := by simp [argmaxRow]
      omega
  | succ m ih =>
    have hsucc : argmaxRow X (m + 1) base
        = if X (base + m) > (argmaxRow X m base).2
          then (m, X (base + m)) else argmaxRow X m base := by
      unfold argmaxRow
      rw [List.range_succ, List.foldl_append]
      simp
    obtain ⟨ih1, ih2, ih3, ih4⟩ := ih
    by_cases hc : X (base + m) > (argmaxRow X m base).2
    · rw [hsucc, if_pos hc]
      refine ⟨Or.inr (show m < m + 1 by omega), rfl, ?_, ?_⟩
      · intro j hj
        show X (base + j) ≤ X (base + m)
        rcases Nat.lt_succ_iff_lt_or_eq.mp hj with hlt | rfl
        · exact le_of_lt (lt_of_le_of_lt (ih3 j hlt) hc)
        · exact le_refl _
      · intro j hj
        show X (base + j) < X (base + m)
        exact lt_of_le_of_lt (ih3 j hj) hc
    · rw [hsucc, if_neg hc]
      refine ⟨?_, ih2, ?_, ih4⟩
      · rcases ih1 with h0 | hlt
        · exact Or.inl h0
        · exact Or.inr (by omega)
      · intro j hj
        rcases Nat.lt_succ_iff_lt_or_eq.mp hj with hlt | rfl
        · exact ih3 j hlt
        · exact le_of_not_lt hc

/-- C7: for every score matrix with `cols ≥ 1`, `argmax` writes for each
in-range row the smallest column index attaining the row maximum (strict
comparison `elem > max` means ties resolve to the lowest index). -/
theorem C7_argmax_first_max (X : Buf) (Y : IBuf) (rows cols : Nat) {i : Nat}
    (hi : i < rows) (hc : 1 ≤ cols) :
    argmax X ⟨rows, cols⟩ Y i < cols
    ∧ (∀ j < cols, X (i * cols + j) ≤ X (i * cols + argmax X ⟨rows, cols⟩ Y i))
    ∧ (∀ j < argmax X ⟨rows, cols⟩ Y i,
        X (i * cols + j) < X (i * cols + argmax X ⟨rows, cols⟩ Y i)) := by
  have hval : argmax X ⟨rows, cols⟩ Y i = (argmaxRow X cols (i * cols)).1 := by
    unfold argmax
    refine foldl_computes (List.range rows)
      (fun i' Y => IBuf.set Y i' (argmaxRow X cols (i' * cols)).1) i
      ((argmaxRow X cols (i * cols)).1) ?_ ?_ Y
    · intro j _ B hB
      by_cases hp : i = j
      · subst hp
        simp [IBuf.set]
      · simpa [IBuf.set, hp] using hB
    · exact ⟨i, List.mem_range.mpr hi, fun B => by simp [IBuf.set]⟩
  obtain ⟨h1, h2, h3, h4⟩ := argmaxRow_invariant X (i * cols) cols
  rw [hval]
  refine ⟨by rcases h1 with h1 | h1 <;> omega, ?_, ?_⟩
  · intro j hj
    have := h3 j hj
    rwa [h2] at this
  · intro j hj
    have := h4 j hj
    rwa [h2] at this

/-- The 1×3 score row `[0.5, 0.5, 0.3]`. -/
def X53 : Buf := fun i => if i = 2 then 3 / 10 else 1 / 2

/-- Witness for C7: on the row `[0.5, 0.5, 0.3]` the argmax is 0 (tie broken
to the lowest index). -/
theorem C7_argmax_first_max_witness :
    (argmax X53 ⟨1, 3⟩ (fun _ => 0) 0 < 3
      ∧ (∀ j < 3, X53 (0 * 3 + j) ≤ X53 (0 * 3 + argmax X53 ⟨1, 3⟩ (fun _ => 0) 0))
      ∧ (∀ j < argmax X53 ⟨1, 3⟩ (fun _ => 0) 0,
          X53 (0 * 3 + j) < X53 (0 * 3 + argmax X53 ⟨1, 3⟩ (fun _ => 0) 0)))
    ∧ argmax X53 ⟨1, 3⟩ (fun _ => 0) 0 = 0 :=
  ⟨C7_argmax_first_max X53 (fun _ => 0) 1 3 (by norm_num) (by norm_num),
   by norm_num [argmax, argmaxRow, X53, IBuf.set, show List.range 1 = [0] from rfl,
     show List.range 3 = [0, 1, 2] from rfl]⟩

/-! ### Pipeline shape computation (sequential `forward_operation`) -/

/-- `#define NUM_ROWS 28`. -/
def NUM_ROWS : Nat := 28

/-- `#define NUM_COLS 28`. -/
def NUM_COLS : Nat := 28

/-- `#define NUM_CHANNELS 1`. -/
def NUM_CHANNELS : Nat := 1

/-- `#define NUM_DIGITS 10`. -/
def NUM_DIGITS : Nat := 10

/-- `static int conv1dims[] = {5, 5, 1, 32}`. -/
def conv1dims : Dims4 := ⟨5, 5, 1, 32⟩

/-- `static int conv2dims[] = {5, 5, 32, 64}`. -/
def conv2dims : Dims4 := ⟨5, 5, 32, 64⟩

/-- `static int fc1dims[] = {1024, 128}`. -/
def fc1dims : Dims2 := ⟨1024, 128⟩

/-- `static int fc2dims[] = {128, 10}`. -/
def fc2dims : Dims2 := ⟨128, 10⟩

/-- `static int xdims[] = {FLAGS_batch_size, NUM_ROWS, NUM_COLS, NUM_CHANNELS}`. -/
def xdims (batch : Nat) : Dims4 := ⟨batch, NUM_ROWS, NUM_COLS, NUM_CHANNELS⟩

/-- `const int pool_size = 2`. -/
def pool_size : Nat := 2

/-- Conv1 output shape `{xdims[0], xdims[1]-conv1dims[0]+1, xdims[2]-conv1dims[1]+1, conv1dims[3]}`. -/
def adims (b : Nat) : Dims4 :=
  ⟨(xdims b).d0, (xdims b).d1 - conv1dims.d0 + 1, (xdims b).d2 - conv1dims.d1 + 1, conv1dims.d3⟩

/-- Pool1 output shape `{adims[0], adims[1]/pool_size, adims[2]/pool_size, adims[3]}`. -/
def bdims (b : Nat) : Dims4 :=
  ⟨(adims b).d0, (adims b).d1 / pool_size, (adims b).d2 / pool_size, (adims b).d3⟩

/-- Conv2 output shape `{bdims[0], bdims[1]-conv2dims[0]+1, bdims[2]-conv2dims[1]+1, conv2dims[3]}`. -/
def cdims (b : Nat) : Dims4 :=
  ⟨(bdims b).d0, (bdims b).d1 - conv2dims.d0 + 1, (bdims b).d2 - conv2dims.d1 + 1, conv2dims.d3⟩

/-- Pool2 output shape `{cdims[0], cdims[1]/pool_size, cdims[2]/pool_size, cdims[3]}`. -/
def ddims (b : Nat) : Dims4 :=
  ⟨(cdims b).d0, (cdims b).d1 / pool_size, (cdims b).d2 / pool_size, (cdims b).d3⟩

/-- Flatten shape `{ddims[0], ddims[1]*ddims[2]*ddims[3]}`. -/
def ddims2 (b : Nat) : Dims2 := ⟨(ddims b).d0, (ddims b).d1 * (ddims b).d2 * (ddims b).d3⟩

/-- FC1 output shape `{ddims[0], fc1dims[1]}`. -/
def edims (b : Nat) : Dims2 := ⟨(ddims b).d0, fc1dims.d1⟩

/-- FC2 output shape `{edims[0], fc2dims[1]}`. -/
def fdims (b : Nat) : Dims2 := ⟨(edims b).d0, fc2dims.d1⟩

/-- C6: for every batch size N ≥ 1 the intermediate shapes derived by the
forward pipeline from the fixed hyperparameters are exactly conv1 N×24×24×32,
pool1 N×12×12×32, conv2 N×8×8×64, pool2 N×4×4×64, flatten N×1024, fc1 N×128
and fc2 N×10; the computation is a total function of the hyperparameters. -/
theorem C6_shapes (N : Nat) (hN : 1 ≤ N) :
    adims N = ⟨N, 24, 24, 32⟩
    ∧ bdims N = ⟨N, 12, 12, 32⟩
    ∧ cdims N = ⟨N, 8, 8, 64⟩
    ∧ ddims N = ⟨N, 4, 4, 64⟩
    ∧ ddims2 N = ⟨N, 1024⟩
    ∧ edims N = ⟨N, 128⟩
    ∧ fdims N = ⟨N, 10⟩ := by
  simp [adims, bdims, cdims, ddims, ddims2, edims, fdims, xdims, conv1dims, conv2dims,
    fc1dims, fc2dims, pool_size, NUM_ROWS, NUM_COLS, NUM_CHANNELS]

/-- Witness for C6 at batch size 2. -/
theorem C6_shapes_witness :
    adims 2 = ⟨2, 24, 24, 32⟩
    ∧ bdims 2 = ⟨2, 12, 12, 32⟩
    ∧ cdims 2 = ⟨2, 8, 8, 64⟩
    ∧ ddims 2 = ⟨2, 4, 4, 64⟩
    ∧ ddims2 2 = ⟨2, 1024⟩
    ∧ edims 2 = ⟨2, 128⟩
    ∧ fdims 2 = ⟨2, 10⟩ :=
  C6_shapes 2 (by norm_num)

/-! ### Test-data loading (`loadData`)

The HDF5 library calls (`H5Fopen`, `H5Dopen2`, `H5Sget_simple_extent_dims`,
`H5Dread`, …) are external collaborators specified at their interface: the
source exposes the `/x` dataset extents and, on a read, copies the dataset
contents into the caller's buffer. -/

/-- A test-data source: the four extents of `/x` plus the contents of `/x`
and `/y`. -/
structure DataSource where
  dim0 : Nat
  dim1 : Nat
  dim2 : Nat
  dim3 : Nat
  xdata : Buf
  ydata : Buf

/-- Embedding of `loadData`'s control flow: if `input_dims[0] !=
FLAGS_batch_size`, return error code 1 before any `H5Dread`, leaving both
caller buffers unwritten; otherwise read both datasets and return 0. -/
def loadData (src : DataSource) (batch_size : Nat) (x y : Buf) : Nat × Buf × Buf :=
  if src.dim0 ≠ batch_size then (1, x, y)
  else (0, src.xdata, src.ydata)

/-- C9: a batch-dimension mismatch makes `loadData` fail with a nonzero code
and leaves the caller's buffers unwritten; agreement makes it read both
tensors and return success. -/
theorem C9_loadData_batch_mismatch (src : DataSource) (batch : Nat) (x y : Buf) :
    (src.dim0 ≠ batch →
      (loadData src batch x y).1 = 1
      ∧ (loadData src batch x y).2.1 = x
      ∧ (loadData src batch x y).2.2 = y)
    ∧ (src.dim0 = batch →
      (loadData src batch x y).1 = 0
      ∧ (loadData src batch x y).2.1 = src.xdata
      ∧ (loadData src batch x y).2.2 = src.ydata) := by
  constructor
  · intro hne
    simp [loadData, hne]
  · intro heq
    simp [loadData, heq]

/-- A concrete data source with batch extent 5. -/
def src5 : DataSource := ⟨5, 28, 28, 1, cOne, cNegOne⟩

/-- Witness for C9: extent 5 against configured batch 3 fails without
touching the buffers; against configured batch 5 it succeeds and fills them. -/
theorem C9_loadData_batch_mismatch_witness :
    ((loadData src5 3 Buf.zero X4).1 = 1
      ∧ (loadData src5 3 Buf.zero X4).2.1 = Buf.zero
      ∧ (loadData src5 3 Buf.zero X4).2.2 = X4)
    ∧ ((loadData src5 5 Buf.zero X4).1 = 0
      ∧ (loadData src5 5 Buf.zero X4).2.1 = src5.xdata
      ∧ (loadData src5 5 Buf.zero X4).2.2 = src5.ydata) :=
  ⟨(C9_loadData_batch_mismatch src5 3 Buf.zero X4).1 (by norm_num [src5]),
   (C9_loadData_batch_mismatch src5 5 Buf.zero X4).2 (by norm_num [src5])⟩

/-! ### Tiled shared-memory matrix multiply (`matrixMultiplyShared`)

One thread block is modelled by its shared tiles `Ads`/`Bds` plus the grid
coordinates; `__syncthreads()` makes each phase's guarded loads visible to
the whole block before the dot-product loop runs.  Tile slots that no guard
covers keep arbitrary garbage, which the correctness theorem quantifies
over universally. -/

/-- `#define TILE_WIDTH 16`. -/
def TILE_WIDTH : Nat := 16

/-- The six dimension arguments of `matrixMultiplyShared`. -/
structure MMDims where
  numARows : Nat
  numAColumns : Nat
  numBRows : Nat
  numBColumns : Nat
  numCRows : Nat
  numCColumns : Nat

/-- A block's shared tiles `Ads[ty][tx]` and `Bds[ty][tx]`. -/
structure MMState where
  ads : Nat → Nat → ℚ
  bds : Nat → Nat → ℚ

/-- The guarded loads of one phase (lines 138–150): thread `(ty,tx)` stores
`A[CRow*numAColumns + tx + phase*TILE_WIDTH]` when `CRow < numCRows` and the
column is in range, and symmetrically for `B`; unguarded slots keep their
previous (possibly garbage) contents. -/
def loadPhase (A B : Buf) (d : MMDims) (br bc ph : Nat) (s : MMState) : MMState where
  ads := fun ty tx =>
    if br * TILE_WIDTH + ty < d.numCRows ∧ tx + ph * TILE_WIDTH < d.numAColumns
    then A ((br * TILE_WIDTH + ty) * d.numAColumns + tx + ph * TILE_WIDTH)
    else s.ads ty tx
  bds := fun ty tx =>
    if bc * TILE_WIDTH + tx < d.numCColumns ∧ ty + ph * TILE_WIDTH < d.numBRows
    then B ((ty + ph * TILE_WIDTH) * d.numBColumns + (bc * TILE_WIDTH + tx))
    else s.bds ty tx

/-- The dot-product loop of one phase (lines 154–160): accumulate
`Ads[ty][dot] * Bds[dot][tx]` only when `dot + phase*TILE_WIDTH` is in range
of both operands. -/
def phaseDot (d : MMDims) (s : MMState) (ty tx ph : Nat) (cv : ℚ) : ℚ :=
  (List.range TILE_WIDTH).foldl (fun cv dot =>
    if dot + ph * TILE_WIDTH < d.numAColumns ∧ dot + ph * TILE_WIDTH < d.numBRows
    then cv + s.ads ty dot * s.bds dot tx else cv) cv

/-- The phase loop (lines 135–163) as seen by thread `(ty,tx)` of block
`(br,bc)`: `(numAColumns-1)/TILE_WIDTH + 1` phases of load-sync-accumulate,
starting from garbage shared state `s0` and `Cval = 0`. -/
def mmThreadRun (A B : Buf) (d : MMDims) (br bc ty tx : Nat) (s0 : MMState) : MMState × ℚ :=
  (List.range ((d.numAColumns - 1) / TILE_WIDTH + 1)).foldl
    (fun st ph =>
      let s := loadPhase A B d br bc ph st.1
      (s, phaseDot d s ty tx ph st.2))
    (s0, 0)

/-- The guarded output write (lines 168–171), ReLU-clamped; `off` models the
pointer offset of the `C` argument at the call site. -/
def mmThreadWrite (A B : Buf) (d : MMDims) (br bc ty tx : Nat) (s0 : MMState)
    (off : Nat) (C : Buf) : Buf :=
  if br * TILE_WIDTH + ty < d.numCRows ∧ bc * TILE_WIDTH + tx < d.numCColumns
  then C.set (off + ((br * TILE_WIDTH + ty) * d.numCColumns + (bc * TILE_WIDTH + tx)))
    (reluQ (mmThreadRun A B d br bc ty tx s0).2)
  else C

/-- `ceil(1.0 * n / TILE_WIDTH)` as used for the launch grid. -/
def gridDim (n : Nat) : Nat := (n + TILE_WIDTH - 1) / TILE_WIDTH

/-- A full kernel launch over a `gy × gx` grid of `TILE_WIDTH × TILE_WIDTH`
blocks; every block `(br,bc)` starts from its own garbage shared state
`s0 br bc`. -/
def mmLaunch (A B : Buf) (d : MMDims) (gx gy : Nat) (s0 : Nat → Nat → MMState)
    (off : Nat) (C : Buf) : Buf :=
  (List.range gy).foldl (fun C br =>
    (List.range gx).foldl (fun C bc =>
      (List.range TILE_WIDTH).foldl (fun C ty =>
        (List.range TILE_WIDTH).foldl (fun C tx =>
          mmThreadWrite A B d br bc ty tx (s0 br bc) off C) C) C) C) C

/-- The naive dot product of row `i` of `A` and column `j` of `B`. -/
def dotAB (A B : Buf) (d : MMDims) (i j : Nat) : ℚ :=
  ∑ k in Finset.range d.numAColumns, A (i * d.numAColumns + k) * B (k * d.numBColumns + j)

/-- Conditional accumulation folds are sums of guarded terms. -/
theorem foldl_add_ite (P : Nat → Prop) [DecidablePred P] (t : Nat → ℚ) :
    ∀ (L : List Nat) (a : ℚ),
    L.foldl (fun s k => if P k then s + t k else s) a
      = a + (L.map (fun k => if P k then t k else 0)).sum := by
  intro L
  induction L with
  | nil => intro a; simp
  | cons x xs ih =>
    intro a
    simp only [List.foldl_cons, List.map_cons, List.sum_cons]
    by_cases hx : P x
    · rw [if_pos hx, if_pos hx, ih]
      ring
    · rw [if_neg hx, if_neg hx, ih]
      ring

/-- Re-indexing a phase/offset double sum over the contraction dimension. -/
theorem sum_phases (f : Nat → ℚ) (T K : Nat) : ∀ P : Nat,
    (∑ ph in Finset.range P, ∑ dot in Finset.range T,
      if ph * T + dot < K then f (ph * T + dot) else 0)
      = ∑ k in Finset.range (min (P * T) K), f k := by
  intro P
  induction P with
  | zero => simp
  | succ m ih =>
    rw [Finset.sum_range_succ, ih]
    have hinner : (∑ dot in Finset.range T, if m * T + dot < K then f (m * T + dot) else 0)
        = ∑ dot in Finset.range (min T (K - m * T)), f (m * T + dot) := by
      rw [show (∑ dot in Finset.range T, if m * T + dot < K then f (m * T + dot) else 0)
          = ∑ dot in Finset.range T, if dot < K - m * T then f (m * T + dot) else 0 from
        Finset.sum_congr rfl (fun dot _ => by
          by_cases hc : m * T + dot < K
          · rw [if_pos hc, if_pos (by omega)]
          · rw [if_neg hc, if_neg (by omega)])]
      exact sum_range_ite_lt (fun dot => f (m * T + dot)) (K - m * T) T
    rw [hinner]
    rcases le_or_lt K (m * T) with hle | hlt
    · rw [show min (m * T) K = K by omega, show min T (K - m * T) = 0 by omega,
        show min ((m + 1) * T) K = K by
          have : m * T ≤ (m + 1) * T := by nlinarith
          omega]
      simp
    · rw [show min (m * T) K = m * T by omega]
      rw [show min ((m + 1) * T) K = m * T + min T (K - m * T) by
        have h1 : (m + 1) * T = m * T + T := by ring
        omega]
      rw [sum_range_split]

theorem phase_step (A B : Buf) (d : MMDims) (br bc ty tx ph : Nat) (s : MMState) (cv : ℚ)
    (hK : d.numAColumns = d.numBRows)
    (hrow : br * TILE_WIDTH + ty < d.numCRows)
    (hcol : bc * TILE_WIDTH + tx < d.numCColumns) :
    phaseDot d (loadPhase A B d br bc ph s) ty tx ph cv
      = cv + ∑ dot in Finset.range TILE_WIDTH,
          (if ph * TILE_WIDTH + dot < d.numAColumns
           then A ((br * TILE_WIDTH + ty) * d.numAColumns + (ph * TILE_WIDTH + dot))
             * B ((ph * TILE_WIDTH + dot) * d.numBColumns + (bc * TILE_WIDTH + tx))
           else 0) := by
  unfold phaseDot
  rw [foldl_add_ite, listmap_sum]
  congr 1
  refine Finset.sum_congr rfl (fun dot _ => ?_)
  by_cases hc : ph * TILE_WIDTH + dot < d.numAColumns
  · rw [if_pos ⟨by omega, by omega⟩, if_pos hc]
    unfold loadPhase
    dsimp only
    rw [if_pos ⟨hrow, by omega⟩, if_pos ⟨hcol, by omega⟩]
    rw [show (br * TILE_WIDTH + ty) * d.numAColumns + dot + ph * TILE_WIDTH
        = (br * TILE_WIDTH + ty) * d.numAColumns + (ph * TILE_WIDTH + dot) by ring,
      show (dot + ph * TILE_WIDTH) * d.numBColumns + (bc * TILE_WIDTH + tx)
        = (ph * TILE_WIDTH + dot) * d.numBColumns + (bc * TILE_WIDTH + tx) by ring]
  · rw [if_neg (by omega), if_neg hc]

theorem mmThreadRun_snd (A B : Buf) (d : MMDims) (br bc ty tx : Nat)
    (hK : d.numAColumns = d.numBRows)
    (hrow : br * TILE_WIDTH + ty < d.numCRows)
    (hcol : bc * TILE_WIDTH + tx < d.numCColumns) :
    ∀ (L : List Nat) (s : MMState) (cv : ℚ),
    (L.foldl (fun st ph =>
        let s' := loadPhase A B d br bc ph st.1
        (s', phaseDot d s' ty tx ph st.2)) (s, cv)).2
      = cv + (L.map (fun ph => ∑ dot in Finset.range TILE_WIDTH,
          (if ph * TILE_WIDTH + dot < d.numAColumns
           then A ((br * TILE_WIDTH + ty) * d.numAColumns + (ph * TILE_WIDTH + dot))
             * B ((ph * TILE_WIDTH + dot) * d.numBColumns + (bc * TILE_WIDTH + tx))
           else 0))).sum := by
  intro L
  induction L with
  | nil => intro s cv; simp
  | cons ph L' ih =>
    intro s cv
    simp only [List.foldl_cons, List.map_cons, List.sum_cons]
    rw [ih (loadPhase A B d br bc ph s) (phaseDot d (loadPhase A B d br bc ph s) ty tx ph cv)]
    rw [phase_step A B d br bc ty tx ph s cv hK hrow hcol]
    ring

/-- One thread's accumulator after the full phase loop equals the exact dot
product of its row of `A` and column of `B`, for any garbage start state. -/
theorem mmThreadRun_cval (A B : Buf) (d : MMDims) (br bc ty tx : Nat) (s0 : MMState)
    (hK : d.numAColumns = d.numBRows)
    (hrow : br * TILE_WIDTH + ty < d.numCRows)
    (hcol : bc * TILE_WIDTH + tx < d.numCColumns) :
    (mmThreadRun A B d br bc ty tx s0).2
      = dotAB A B d (br * TILE_WIDTH + ty) (bc * TILE_WIDTH + tx) := by
  unfold mmThreadRun
  rw [mmThreadRun_snd A B d br bc ty tx hK hrow hcol
    (List.range ((d.numAColumns - 1) / TILE_WIDTH + 1)) s0 0]
  rw [listmap_sum]
  rw [sum_phases (fun k => A ((br * TILE_WIDTH + ty) * d.numAColumns + k)
      * B (k * d.numBColumns + (bc * TILE_WIDTH + tx))) TILE_WIDTH d.numAColumns
      ((d.numAColumns - 1) / TILE_WIDTH + 1)]
  rw [show min (((d.numAColumns - 1) / TILE_WIDTH + 1) * TILE_WIDTH) d.numAColumns
      = d.numAColumns by
    simp only [TILE_WIDTH]
    omega]
  rw [zero_add]
  rfl

theorem mmThreadWrite_pres (A B : Buf) (d : MMDims) (br bc ty tx off : Nat) (s0 : MMState)
    (C : Buf) {i j : Nat} (hi : i < d.numCRows) (hj : j < d.numCColumns)
    (hK : d.numAColumns = d.numBRows)
    (hC : C (off + (i * d.numCColumns + j)) = reluQ (dotAB A B d i j)) :
    mmThreadWrite A B d br bc ty tx s0 off C (off + (i * d.numCColumns + j))
      = reluQ (dotAB A B d i j) := by
  unfold mmThreadWrite
  by_cases hg : br * TILE_WIDTH + ty < d.numCRows ∧ bc * TILE_WIDTH + tx < d.numCColumns
  · rw [if_pos hg]
    by_cases hp : off + (i * d.numCColumns + j)
        = off + ((br * TILE_WIDTH + ty) * d.numCColumns + (bc * TILE_WIDTH + tx))
    · have heq : i * d.numCColumns + j
          = (br * TILE_WIDTH + ty) * d.numCColumns + (bc * TILE_WIDTH + tx) := by omega
      obtain ⟨hrow, hcol⟩ := mul_add_inj heq hj hg.2
      rw [hp, Buf.set_self]
      rw [mmThreadRun_cval A B d br bc ty tx s0 hK hg.1 hg.2]
      rw [← hrow, ← hcol]
    · rw [Buf.set_other _ _ _ _ hp]
      exact hC
  · rw [if_neg hg]
    exact hC

theorem mmThreadWrite_hits (A B : Buf) (d : MMDims) (off : Nat) (s0 : MMState)
    (C : Buf) {i j : Nat} (hi : i < d.numCRows) (hj : j < d.numCColumns)
    (hK : d.numAColumns = d.numBRows) :
    mmThreadWrite A B d (i / TILE_WIDTH) (j / TILE_WIDTH) (i % TILE_WIDTH) (j % TILE_WIDTH)
        s0 off C (off + (i * d.numCColumns + j))
      = reluQ (dotAB A B d i j) := by
  have hrow : i / TILE_WIDTH * TILE_WIDTH + i % TILE_WIDTH = i := by
    simp only [TILE_WIDTH]
    omega
  have hcol : j / TILE_WIDTH * TILE_WIDTH + j % TILE_WIDTH = j := by
    simp only [TILE_WIDTH]
    omega
  unfold mmThreadWrite
  rw [hrow, hcol, if_pos ⟨hi, hj⟩, Buf.set_self,
    mmThreadRun_cval A B d (i / TILE_WIDTH) (j / TILE_WIDTH) (i % TILE_WIDTH) (j % TILE_WIDTH)
      s0 hK (by rw [hrow]; exact hi) (by rw [hcol]; exact hj), hrow, hcol]

/-- Every in-range element written by a full launch of `matrixMultiplyShared`
(with the call sites' `ceil` grid) equals the ReLU-clamped exact dot product,
for arbitrary garbage in every block's shared tiles. -/
theorem mmLaunch_at (A B C : Buf) (d : MMDims) (s0 : Nat → Nat → MMState) (off : Nat)
    {i j : Nat} (hi : i < d.numCRows) (hj : j < d.numCColumns)
    (hK : d.numAColumns = d.numBRows) :
    mmLaunch A B d (gridDim d.numCColumns) (gridDim d.numCRows) s0 off C
        (off + (i * d.numCColumns + j))
      = reluQ (dotAB A B d i j) := by
  unfold mmLaunch
  refine foldl_computes (List.range (gridDim d.numCRows)) _ _ _ ?_ ?_ C
  · intro br _ B1 hB1
    refine foldl_preserves (List.range (gridDim d.numCColumns)) _ _ _ ?_ B1 hB1
    intro bc _ B2 hB2
    refine foldl_preserves (List.range TILE_WIDTH) _ _ _ ?_ B2 hB2
    intro ty _ B3 hB3
    refine foldl_preserves (List.range TILE_WIDTH) _ _ _ ?_ B3 hB3
    intro tx _ B4 hB4
    exact mmThreadWrite_pres A B d br bc ty tx off (s0 br bc) B4 hi hj hK hB4
  · refine ⟨i / TILE_WIDTH, List.mem_range.mpr (by simp only [gridDim, TILE_WIDTH]; omega),
      fun B1 => ?_⟩
    refine foldl_computes (List.range (gridDim d.numCColumns)) _ _ _ ?_ ?_ B1
    · intro bc _ B2 hB2
      refine foldl_preserves (List.range TILE_WIDTH) _ _ _ ?_ B2 hB2
      intro ty _ B3 hB3
      refine foldl_preserves (List.range TILE_WIDTH) _ _ _ ?_ B3 hB3
      intro tx _ B4 hB4
      exact mmThreadWrite_pres A B d (i / TILE_WIDTH) bc ty tx off (s0 (i / TILE_WIDTH) bc)
        B4 hi hj hK hB4
    · refine ⟨j / TILE_WIDTH, List.mem_range.mpr (by simp only [gridDim, TILE_WIDTH]; omega),
        fun B2 => ?_⟩
      refine foldl_computes (List.range TILE_WIDTH) _ _ _ ?_ ?_ B2
      · intro ty _ B3 hB3
        refine foldl_preserves (List.range TILE_WIDTH) _ _ _ ?_ B3 hB3
        intro tx _ B4 hB4
        exact mmThreadWrite_pres A B d (i / TILE_WIDTH) (j / TILE_WIDTH) ty tx off
          (s0 (i / TILE_WIDTH) (j / TILE_WIDTH)) B4 hi hj hK hB4
      · refine ⟨i % TILE_WIDTH, List.mem_range.mpr (by simp only [TILE_WIDTH]; omega),
          fun B3 => ?_⟩
        refine foldl_computes (List.range TILE_WIDTH) _ _ _ ?_ ?_ B3
        · intro tx _ B4 hB4
          exact mmThreadWrite_pres A B d (i / TILE_WIDTH) (j / TILE_WIDTH) (i % TILE_WIDTH)
            tx off (s0 (i / TILE_WIDTH) (j / TILE_WIDTH)) B4 hi hj hK hB4
        · exact ⟨j % TILE_WIDTH, List.mem_range.mpr (by simp only [TILE_WIDTH]; omega),
            fun B4 => mmThreadWrite_hits A B d off (s0 (i / TILE_WIDTH) (j / TILE_WIDTH))
              B4 hi hj hK⟩

/-- A shared-memory state filled with the garbage value 99 in every slot. -/
def garbage99 : MMState := ⟨fun _ _ => 99, fun _ _ => 99⟩

/-- Counterexample to C3 as stated: `matrixMultiplyShared` clamps each output
at zero (line 170), so for A = [−1], B = [1] (1×1, well within one tile) the
kernel writes 0 while the naive triple-loop dot product is −1. -/
theorem C3_counterexample :
    ¬ (mmLaunch cNegOne cOne ⟨1, 1, 1, 1, 1, 1⟩ (gridDim 1) (gridDim 1)
        (fun _ _ => garbage99) 0 Buf.zero 0
      = dotAB cNegOne cOne ⟨1, 1, 1, 1, 1, 1⟩ 0 0) := by
  have h := mmLaunch_at cNegOne cOne Buf.zero ⟨1, 1, 1, 1, 1, 1⟩
    (fun _ _ => garbage99) 0 (i := 0) (j := 0) (by norm_num) (by norm_num) rfl
  norm_num at h
  rw [h]
  norm_num [dotAB, reluQ, cNegOne, cOne, Finset.sum_range_succ]

/-- C3 (amended): for matrices of arbitrary dimensions with
`numAColumns = numBRows` — in particular dimensions that are not multiples of
the tile width — the tiled shared-memory multiply writes every in-range
output element equal to `max(0, dot product)` of row i of A and column j of
B: the in-range re-checks in the accumulation loop skip tile slots whose
operand index is out of range, so arbitrary garbage in unused slots never
contaminates the sum; the raw naive product is obtained exactly when it is
nonnegative, the fused ReLU clamp replacing negative values by 0. -/
theorem C3_tiled_mm_boundary (A B C : Buf) (d : MMDims) (s0 : Nat → Nat → MMState)
    (off : Nat) {i j : Nat} (hi : i < d.numCRows) (hj : j < d.numCColumns)
    (hK : d.numAColumns = d.numBRows) :
    mmLaunch A B d (gridDim d.numCColumns) (gridDim d.numCRows) s0 off C
        (off + (i * d.numCColumns + j)) = reluQ (dotAB A B d i j) :=
  mmLaunch_at A B C d s0 off hi hj hK

/-- Witness for C3 with every dimension 15 (one less than the tile width 16),
all-garbage shared tiles, at the boundary element (14,14). -/
theorem C3_tiled_mm_boundary_witness :
    mmLaunch cOne cOne ⟨15, 15, 15, 15, 15, 15⟩ (gridDim 15) (gridDim 15)
        (fun _ _ => garbage99) 0 Buf.zero (0 + (14 * 15 + 14))
      = reluQ (dotAB cOne cOne ⟨15, 15, 15, 15, 15, 15⟩ 14 14)
    ∧ reluQ (dotAB cOne cOne ⟨15, 15, 15, 15, 15, 15⟩ 14 14) = 15 :=
  ⟨C3_tiled_mm_boundary cOne cOne Buf.zero ⟨15, 15, 15, 15, 15, 15⟩
      (fun _ _ => garbage99) 0 (by norm_num) (by norm_num) rfl,
   by norm_num [dotAB, reluQ, cOne]⟩

/-! ### Unroll-and-multiply convolution path (`convLayer_forward`) -/

theorem rm2_lt {a b A B : Nat} (ha : a < A) (hb : b < B) : a * B + b < A * B := by
  have h1 : a * B + b < (a + 1) * B := by
    have : (a + 1) * B = a * B + B := by ring
    omega
  have h2 : (a + 1) * B ≤ A * B := Nat.mul_le_mul_right B (by omega)
  omega

theorem foldl_obs_preserves {ι σ α : Type} (L : List ι) (f : ι → σ → σ) (obs : σ → α) (v : α)
    (hstep : ∀ j ∈ L, ∀ s : σ, obs s = v → obs (f j s) = v) :
    ∀ s : σ, obs s = v → obs (L.foldl (fun s j => f j s) s) = v := by
  induction L with
  | nil => intro s hs; simpa using hs
  | cons x xs ih =>
    intro s hs
    simp only [List.foldl_cons]
    exact ih (fun j hj => hstep j (List.mem_cons_of_mem x hj)) (f x s)
      (hstep x (List.mem_cons_self x xs) s hs)

theorem foldl_obs_computes {ι σ α : Type} (L : List ι) (f : ι → σ → σ) (obs : σ → α) (v : α)
    (hstep : ∀ j ∈ L, ∀ s : σ, obs s = v → obs (f j s) = v)
    (hex : ∃ i ∈ L, ∀ s : σ, obs (f i s) = v) :
    ∀ s : σ, obs (L.foldl (fun s j => f j s) s) = v := by
  induction L with
  | nil =>
    rcases hex with ⟨i, hi, _⟩
    exact absurd hi (List.not_mem_nil i)
  | cons x xs ih =>
    intro s
    simp only [List.foldl_cons]
    rcases hex with ⟨i, hi, hv⟩
    rcases List.mem_cons.mp hi with rfl | hmem
    · exact foldl_obs_preserves xs f obs v (fun j hj => hstep j (List.mem_cons_of_mem _ hj))
        (f i s) (hv s)
    · exact ih (fun j hj => hstep j (List.mem_cons_of_mem x hj)) ⟨i, hmem, hv⟩ (f x s)

/-- Embedding of the `unrollFilters` kernel (grid = C blocks of M threads):
`W_unroll[m*C*K*K + c*K*K + p*K + q] = W[p*K*C*M + q*C*M + c*M + m]`. -/
def unrollFilters (C M K : Nat) (W W_unroll : Buf) : Buf :=
  (List.range C).foldl (fun B c =>
    (List.range M).foldl (fun B m =>
      if c < C ∧ m < M then
        (List.range K).foldl (fun B p =>
          (List.range K).foldl (fun B q =>
            B.set (m * C * K * K + c * K * K + p * K + q)
              (W (p * K * C * M + q * C * M + c * M + m))) B) B
      else B) B) W_unroll

/-- Embedding of the sequential `unroll` of sample `n` (loops `c,p,q,h,w`):
`X_unroll[w_unroll*H_unroll + h_unroll] = X[x_index]` with
`w_unroll = c*K*K + p*K + q` and `h_unroll = h*W_out + w`. -/
def unroll (C H W K n : Nat) (X : Buf) (X_unroll : Buf) : Buf :=
  (List.range C).foldl (fun B c =>
    (List.range K).foldl (fun B p =>
      (List.range K).foldl (fun B q =>
        (List.range (H - K + 1)).foldl (fun B h =>
          (List.range (W - K + 1)).foldl (fun B w =>
            B.set ((c * (K * K) + p * K + q) * ((H - K + 1) * (W - K + 1))
                + (h * (W - K + 1) + w))
              (X (n * H * W * C + (h + p) * W * C + (w + q) * C + c))) B) B) B) B) X_unroll

/-- Embedding of the `rerollOutput` kernel (grid = N blocks of M threads):
`Y[((n*H_out + h)*W_out + w)*M + m] = Y_unrolled[n*M*H_out*W_out + m*H_out*W_out + h*W_out + w]`. -/
def rerollOutput (M N H_out W_out : Nat) (Y_unrolled Y : Buf) : Buf :=
  (List.range N).foldl (fun B n =>
    (List.range M).foldl (fun B m =>
      if m < M ∧ n < N then
        (List.range H_out).foldl (fun B h =>
          (List.range W_out).foldl (fun B w =>
            B.set (((n * H_out + h) * W_out + w) * M + m)
              (Y_unrolled (n * M * H_out * W_out + m * H_out * W_out + h * W_out + w))) B) B
      else B) B) Y

/-- Embedding of `convLayer_forward`: unroll the filters once on the device,
then for each sample unroll the input (reusing one host buffer, hence the
pair state) and launch the tiled multiply into the sample's slice of the
unrolled output, and finally reroll.  `Xu0`, `Wu0`, `Yu0`, `Y0` are the
uninitialized (`malloc`/`cudaMalloc`) buffer contents and `sh n br bc` the
garbage shared tiles of block `(br,bc)` of sample `n`'s launch. -/
def convLayer_forward (N M C H W K : Nat) (X Mask : Buf) (ydims : Dims4)
    (Xu0 Wu0 Yu0 Y0 : Buf) (sh : Nat → Nat → Nat → MMState) : Buf :=
  let W_un := unrollFilters C M K Mask Wu0
  let st := (List.range N).foldl (fun (st : Buf × Buf) n =>
      let Xu := unroll C H W K n X st.1
      (Xu, mmLaunch W_un Xu
        ⟨M, C * K * K, C * K * K, (H - K + 1) * (W - K + 1), M, (H - K + 1) * (W - K + 1)⟩
        (gridDim ((H - K + 1) * (W - K + 1))) (gridDim M) (sh n)
        (n * (ydims.d1 * ydims.d2 * ydims.d3)) st.2))
    (Xu0, Yu0)
  rerollOutput M N (H - K + 1) (W - K + 1) st.2 Y0

theorem unrollFilters_at (C M K : Nat) (W Wu0 : Buf) {c m p q : Nat}
    (hc : c < C) (hm : m < M) (hp : p < K) (hq : q < K) :
    unrollFilters C M K W Wu0 (m * C * K * K + c * K * K + p * K + q)
      = W (p * K * C * M + q * C * M + c * M + m) := by
  have hflat : ∀ a b u v : Nat,
      a * C * K * K + b * K * K + u * K + v = ((a * C + b) * K + u) * K + v := by
    intro a b u v
    ring
  have hinj : ∀ c' m' p' q', c' < C → m' < M → p' < K → q' < K →
      m' * C * K * K + c' * K * K + p' * K + q'
        = m * C * K * K + c * K * K + p * K + q →
      m' = m ∧ c' = c ∧ p' = p ∧ q' = q := by
    intro c' m' p' q' hc' hm' hp' hq' heq
    rw [hflat, hflat] at heq
    obtain ⟨e1, hqq⟩ := mul_add_inj heq hq' hq
    obtain ⟨e2, hpp⟩ := mul_add_inj e1 hp' hp
    obtain ⟨e3, hcc⟩ := mul_add_inj e2 hc' hc
    exact ⟨e3, hcc, hpp, hqq⟩
  unfold unrollFilters
  refine foldl_computes (List.range C) _ _ _ ?_ ?_ Wu0
  · intro c' hcm B1 hB1
    refine foldl_preserves (List.range M) _ _ _ ?_ B1 hB1
    intro m' hmm B2 hB2
    dsimp only
    split
    case isFalse => exact hB2
    case isTrue hg =>
      refine foldl_preserves (List.range K) _ _ _ ?_ B2 hB2
      intro p' hpm B3 hB3
      refine foldl_preserves (List.range K) _ _ _ ?_ B3 hB3
      intro q' hqm B4 hB4
      by_cases hpos : m * C * K * K + c * K * K + p * K + q
          = m' * C * K * K + c' * K * K + p' * K + q'
      · obtain ⟨rfl, rfl, rfl, rfl⟩ := hinj c' m' p' q' hg.1 hg.2
          (List.mem_range.mp hpm) (List.mem_range.mp hqm) hpos.symm
        simpa [Buf.set] using rfl
      · simpa [Buf.set, hpos] using hB4
  · refine ⟨c, List.mem_range.mpr hc, fun B1 => ?_⟩
    refine foldl_computes (List.range M) _ _ _ ?_ ?_ B1
    · intro m' hmm B2 hB2
      dsimp only
      split
      case isFalse => exact hB2
      case isTrue hg =>
        refine foldl_preserves (List.range K) _ _ _ ?_ B2 hB2
        intro p' hpm B3 hB3
        refine foldl_preserves (List.range K) _ _ _ ?_ B3 hB3
        intro q' hqm B4 hB4
        by_cases hpos : m * C * K * K + c * K * K + p * K + q
            = m' * C * K * K + c * K * K + p' * K + q'
        · obtain ⟨rfl, _, rfl, rfl⟩ := hinj c m' p' q' hc hg.2
            (List.mem_range.mp hpm) (List.mem_range.mp hqm) hpos.symm
          simpa [Buf.set] using rfl
        · simpa [Buf.set, hpos] using hB4
    · refine ⟨m, List.mem_range.mpr hm, fun B2 => ?_⟩
      rw [if_pos ⟨hc, hm⟩]
      refine foldl_computes (List.range K) _ _ _ ?_ ?_ B2
      · intro p' hpm B3 hB3
        refine foldl_preserves (List.range K) _ _ _ ?_ B3 hB3
        intro q' hqm B4 hB4
        by_cases hpos : m * C * K * K + c * K * K + p * K + q
            = m * C * K * K + c * K * K + p' * K + q'
        · obtain ⟨_, _, rfl, rfl⟩ := hinj c m p' q' hc hm
            (List.mem_range.mp hpm) (List.mem_range.mp hqm) hpos.symm
          simpa [Buf.set] using rfl
        · simpa [Buf.set, hpos] using hB4
      · refine ⟨p, List.mem_range.mpr hp, fun B3 => ?_⟩
        refine foldl_computes (List.range K) _ _ _ ?_ ?_ B3
        · intro q' hqm B4 hB4
          by_cases hpos : m * C * K * K + c * K * K + p * K + q
              = m * C * K * K + c * K * K + p * K + q'
          · obtain ⟨_, _, _, rfl⟩ := hinj c m p q' hc hm hp
              (List.mem_range.mp hqm) hpos.symm
            simpa [Buf.set] using rfl
          · simpa [Buf.set, hpos] using hB4
        · exact ⟨q, List.mem_range.mpr hq, fun B4 => by simp [Buf.set]⟩

theorem unroll_at (C H W K n : Nat) (X Xu0 : Buf) {c p q h w : Nat}
    (hc : c < C) (hp : p < K) (hq : q < K) (hh : h < H - K + 1) (hw : w < W - K + 1) :
    unroll C H W K n X Xu0
        ((c * (K * K) + p * K + q) * ((H - K + 1) * (W - K + 1)) + (h * (W - K + 1) + w))
      = X (n * H * W * C + (h + p) * W * C + (w + q) * C + c) := by
  have hinj : ∀ c' p' q' h' w', c' < C → p' < K → q' < K → h' < H - K + 1 → w' < W - K + 1 →
      (c' * (K * K) + p' * K + q') * ((H - K + 1) * (W - K + 1)) + (h' * (W - K + 1) + w')
        = (c * (K * K) + p * K + q) * ((H - K + 1) * (W - K + 1)) + (h * (W - K + 1) + w) →
      c' = c ∧ p' = p ∧ q' = q ∧ h' = h ∧ w' = w := by
    intro c' p' q' h' w' hc' hp' hq' hh' hw' heq
    have hk' : c' * (K * K) + p' * K + q' < C * (K * K) := by
      have := rm2_lt hp' hq'
      have h2 := rm2_lt hc' (show p' * K + q' < K * K from this)
      omega
    have hk : c * (K * K) + p * K + q < C * (K * K) := by
      have := rm2_lt hp hq
      have h2 := rm2_lt hc (show p * K + q < K * K from this)
      omega
    have hhw' : h' * (W - K + 1) + w' < (H - K + 1) * (W - K + 1) := rm2_lt hh' hw'
    have hhw : h * (W - K + 1) + w < (H - K + 1) * (W - K + 1) := rm2_lt hh hw
    obtain ⟨ek, ehw⟩ := mul_add_inj heq hhw' hhw
    have ek' : (c' * K + p') * K + q' = (c * K + p) * K + q := by
      have l : ∀ a u v : Nat, (a * K + u) * K + v = a * (K * K) + u * K + v := by
        intro a u v
        ring
      rw [l, l]
      exact ek
    obtain ⟨e1, hqq⟩ := mul_add_inj ek' hq' hq
    obtain ⟨e2, hpp⟩ := mul_add_inj e1 hp' hp
    obtain ⟨e3, hww⟩ := mul_add_inj ehw hw' hw
    exact ⟨e2, hpp, hqq, e3, hww⟩
  have hleaf : ∀ c' p' q' h' w', c' < C → p' < K → q' < K → h' < H - K + 1 → w' < W - K + 1 →
      ∀ B : Buf,
      B ((c * (K * K) + p * K + q) * ((H - K + 1) * (W - K + 1)) + (h * (W - K + 1) + w))
        = X (n * H * W * C + (h + p) * W * C + (w + q) * C + c) →
      (B.set ((c' * (K * K) + p' * K + q') * ((H - K + 1) * (W - K + 1))
            + (h' * (W - K + 1) + w'))
          (X (n * H * W * C + (h' + p') * W * C + (w' + q') * C + c')))
        ((c * (K * K) + p * K + q) * ((H - K + 1) * (W - K + 1)) + (h * (W - K + 1) + w))
        = X (n * H * W * C + (h + p) * W * C + (w + q) * C + c) := by
    intro c' p' q' h' w' hc' hp' hq' hh' hw' B hB
    by_cases hpos : (c * (K * K) + p * K + q) * ((H - K + 1) * (W - K + 1))
          + (h * (W - K + 1) + w)
        = (c' * (K * K) + p' * K + q') * ((H - K + 1) * (W - K + 1))
          + (h' * (W - K + 1) + w')
    · obtain ⟨rfl, rfl, rfl, rfl, rfl⟩ := hinj c' p' q' h' w' hc' hp' hq' hh' hw' hpos.symm
      simp [Buf.set]
    · simpa [Buf.set, hpos] using hB
  unfold unroll
  refine foldl_computes (List.range C) _ _ _ ?_ ?_ Xu0
  · intro c' hcm B hB
    refine foldl_preserves (List.range K) _ _ _ ?_ B hB
    intro p' hpm B hB
    refine foldl_preserves (List.range K) _ _ _ ?_ B hB
    intro q' hqm B hB
    refine foldl_preserves (List.range (H - K + 1)) _ _ _ ?_ B hB
    intro h' hhm B hB
    refine foldl_preserves (List.range (W - K + 1)) _ _ _ ?_ B hB
    intro w' hwm B hB
    exact hleaf c' p' q' h' w' (List.mem_range.mp hcm) (List.mem_range.mp hpm)
      (List.mem_range.mp hqm) (List.mem_range.mp hhm) (List.mem_range.mp hwm) B hB
  · refine ⟨c, List.mem_range.mpr hc, fun B => ?_⟩
    refine foldl_computes (List.range K) _ _ _ ?_ ?_ B
    · intro p' hpm B hB
      refine foldl_preserves (List.range K) _ _ _ ?_ B hB
      intro q' hqm B hB
      refine foldl_preserves (List.range (H - K + 1)) _ _ _ ?_ B hB
      intro h' hhm B hB
      refine foldl_preserves (List.range (W - K + 1)) _ _ _ ?_ B hB
      intro w' hwm B hB
      exact hleaf c p' q' h' w' hc (List.mem_range.mp hpm)
        (List.mem_range.mp hqm) (List.mem_range.mp hhm) (List.mem_range.mp hwm) B hB
    · refine ⟨p, List.mem_range.mpr hp, fun B => ?_⟩
      refine foldl_computes (List.range K) _ _ _ ?_ ?_ B
      · intro q' hqm B hB
        refine foldl_preserves (List.range (H - K + 1)) _ _ _ ?_ B hB
        intro h' hhm B hB
        refine foldl_preserves (List.range (W - K + 1)) _ _ _ ?_ B hB
        intro w' hwm B hB
        exact hleaf c p q' h' w' hc hp
          (List.mem_range.mp hqm) (List.mem_range.mp hhm) (List.mem_range.mp hwm) B hB
      · refine ⟨q, List.mem_range.mpr hq, fun B => ?_⟩
        refine foldl_computes (List.range (H - K + 1)) _ _ _ ?_ ?_ B
        · intro h' hhm B hB
          refine foldl_preserves (List.range (W - K + 1)) _ _ _ ?_ B hB
          intro w' hwm B hB
          exact hleaf c p q h' w' hc hp hq
            (List.mem_range.mp hhm) (List.mem_range.mp hwm) B hB
        · refine ⟨h, List.mem_range.mpr hh, fun B => ?_⟩
          refine foldl_computes (List.range (W - K + 1)) _ _ _ ?_ ?_ B
          · intro w' hwm B hB
            exact hleaf c p q h w' hc hp hq hh (List.mem_range.mp hwm) B hB
          · exact ⟨w, List.mem_range.mpr hw, fun B => by simp [Buf.set]⟩

theorem rerollOutput_at (M N H_out W_out : Nat) (Yu Y0 : Buf) {n m h w : Nat}
    (hn : n < N) (hm : m < M) (hh : h < H_out) (hw : w < W_out) :
    rerollOutput M N H_out W_out Yu Y0 (((n * H_out + h) * W_out + w) * M + m)
      = Yu (n * M * H_out * W_out + m * H_out * W_out + h * W_out + w) := by
  have hleaf : ∀ n' m' h' w', n' < N → m' < M → h' < H_out → w' < W_out →
      ∀ B : Buf,
      B (((n * H_out + h) * W_out + w) * M + m)
        = Yu (n * M * H_out * W_out + m * H_out * W_out + h * W_out + w) →
      (B.set (((n' * H_out + h') * W_out + w') * M + m')
          (Yu (n' * M * H_out * W_out + m' * H_out * W_out + h' * W_out + w')))
        (((n * H_out + h) * W_out + w) * M + m)
        = Yu (n * M * H_out * W_out + m * H_out * W_out + h * W_out + w) := by
    intro n' m' h' w' hn' hm' hh' hw' B hB
    by_cases hpos : ((n * H_out + h) * W_out + w) * M + m
        = ((n' * H_out + h') * W_out + w') * M + m'
    · obtain ⟨rfl, rfl, rfl, rfl⟩ := offset4_inj hpos hh hw hm hh' hw' hm'
      simp [Buf.set]
    · simpa [Buf.set, hpos] using hB
  unfold rerollOutput
  refine foldl_computes (List.range N) _ _ _ ?_ ?_ Y0
  · intro n' hnm B hB
    refine foldl_preserves (List.range M) _ _ _ ?_ B hB
    intro m' hmm B hB
    dsimp only
    split
    case isFalse => exact hB
    case isTrue hg =>
      refine foldl_preserves (List.range H_out) _ _ _ ?_ B hB
      intro h' hhm B hB
      refine foldl_preserves (List.range W_out) _ _ _ ?_ B hB
      intro w' hwm B hB
      exact hleaf n' m' h' w' hg.2 hg.1 (List.mem_range.mp hhm) (List.mem_range.mp hwm) B hB
  · refine ⟨n, List.mem_range.mpr hn, fun B => ?_⟩
    refine foldl_computes (List.range M) _ _ _ ?_ ?_ B
    · intro m' hmm B hB
      dsimp only
      split
      case isFalse => exact hB
      case isTrue hg =>
        refine foldl_preserves (List.range H_out) _ _ _ ?_ B hB
        intro h' hhm B hB
        refine foldl_preserves (List.range W_out) _ _ _ ?_ B hB
        intro w' hwm B hB
        exact hleaf n m' h' w' hn hg.1 (List.mem_range.mp hhm) (List.mem_range.mp hwm) B hB
    · refine ⟨m, List.mem_range.mpr hm, fun B => ?_⟩
      rw [if_pos ⟨hm, hn⟩]
      refine foldl_computes (List.range H_out) _ _ _ ?_ ?_ B
      · intro h' hhm B hB
        refine foldl_preserves (List.range W_out) _ _ _ ?_ B hB
        intro w' hwm B hB
        exact hleaf n m h' w' hn hm (List.mem_range.mp hhm) (List.mem_range.mp hwm) B hB
      · refine ⟨h, List.mem_range.mpr hh, fun B => ?_⟩
        refine foldl_computes (List.range W_out) _ _ _ ?_ ?_ B
        · intro w' hwm B hB
          exact hleaf n m h w' hn hm hh (List.mem_range.mp hwm) B hB
        · exact ⟨w, List.mem_range.mpr hw, fun B => by simp [Buf.set]⟩

/-- A kernel launch leaves untouched every position outside its guarded
write range. -/
theorem mmLaunch_frame (A B C : Buf) (d : MMDims) (gx gy : Nat) (s0 : Nat → Nat → MMState)
    (off pos : Nat)
    (hout : ∀ row col, row < d.numCRows → col < d.numCColumns →
      pos ≠ off + (row * d.numCColumns + col)) :
    mmLaunch A B d gx gy s0 off C pos = C pos := by
  unfold mmLaunch
  refine foldl_preserves (List.range gy) _ pos (C pos) ?_ C rfl
  intro br _ B1 hB1
  refine foldl_preserves (List.range gx) _ _ _ ?_ B1 hB1
  intro bc _ B2 hB2
  refine foldl_preserves (List.range TILE_WIDTH) _ _ _ ?_ B2 hB2
  intro ty _ B3 hB3
  refine foldl_preserves (List.range TILE_WIDTH) _ _ _ ?_ B3 hB3
  intro tx _ B4 hB4
  dsimp only
  unfold mmThreadWrite
  split
  case isFalse => exact hB4
  case isTrue hg =>
    rw [Buf.set_other _ _ _ _ (hout _ _ hg.1 hg.2)]
    exact hB4

/-- Value of the unroll-and-multiply convolution path at an in-range output
offset: the ReLU-clamped triple convolution sum, for arbitrary contents of
every transient buffer and of every block's shared tiles. -/
theorem convLayer_forward_at (X Mask Xu0 Wu0 Yu0 Y0 : Buf) (sh : Nat → Nat → Nat → MMState)
    (N M C H W K : Nat) {n h w m : Nat}
    (hn : n < N) (hh : h < H - K + 1) (hw : w < W - K + 1) (hm : m < M) :
    convLayer_forward N M C H W K X Mask ⟨N, H - K + 1, W - K + 1, M⟩ Xu0 Wu0 Yu0 Y0 sh
        (yoff ⟨N, H - K + 1, W - K + 1, M⟩ n h w m)
      = reluQ (convSum X ⟨N, H, W, C⟩ Mask ⟨K, K, C, M⟩ n h w m) := by
  have hwrite : ∀ (Xprev Yprev : Buf),
      mmLaunch (unrollFilters C M K Mask Wu0) (unroll C H W K n X Xprev)
        ⟨M, C * K * K, C * K * K, (H - K + 1) * (W - K + 1), M, (H - K + 1) * (W - K + 1)⟩
        (gridDim ((H - K + 1) * (W - K + 1))) (gridDim M) (sh n)
        (n * ((H - K + 1) * (W - K + 1) * M)) Yprev
        (n * M * (H - K + 1) * (W - K + 1) + m * (H - K + 1) * (W - K + 1)
          + h * (W - K + 1) + w)
      = reluQ (convSum X ⟨N, H, W, C⟩ Mask ⟨K, K, C, M⟩ n h w m) := by
    intro Xprev Yprev
    have hml := mmLaunch_at (unrollFilters C M K Mask Wu0) (unroll C H W K n X Xprev) Yprev
      ⟨M, C * K * K, C * K * K, (H - K + 1) * (W - K + 1), M, (H - K + 1) * (W - K + 1)⟩
      (sh n) (n * ((H - K + 1) * (W - K + 1) * M))
      (i := m) (j := h * (W - K + 1) + w) hm (rm2_lt hh hw) rfl
    dsimp only at hml
    rw [show n * M * (H - K + 1) * (W - K + 1) + m * (H - K + 1) * (W - K + 1)
          + h * (W - K + 1) + w
        = n * ((H - K + 1) * (W - K + 1) * M)
          + (m * ((H - K + 1) * (W - K + 1)) + (h * (W - K + 1) + w)) by ring]
    rw [hml]
    congr 1
    unfold dotAB
    dsimp only
    rw [sum_range_mul (fun k => unrollFilters C M K Mask Wu0 (m * (C * K * K) + k)
        * unroll C H W K n X Xprev (k * ((H - K + 1) * (W - K + 1)) + (h * (W - K + 1) + w)))
      K (C * K)]
    rw [sum_range_mul (fun i => ∑ j in Finset.range K,
        unrollFilters C M K Mask Wu0 (m * (C * K * K) + (i * K + j))
        * unroll C H W K n X Xprev ((i * K + j) * ((H - K + 1) * (W - K + 1))
            + (h * (W - K + 1) + w))) K C]
    rw [show convSum X ⟨N, H, W, C⟩ Mask ⟨K, K, C, M⟩ n h w m
        = ∑ c in Finset.range C, ∑ p in Finset.range K, ∑ q in Finset.range K,
            X (xoffC ⟨N, H, W, C⟩ n (h + p) (w + q) c) * Mask (woff ⟨K, K, C, M⟩ p q c m) by
      unfold convSum
      dsimp only
      rw [show (∑ p in Finset.range K, ∑ q in Finset.range K, ∑ c in Finset.range C,
            X (xoffC ⟨N, H, W, C⟩ n (h + p) (w + q) c) * Mask (woff ⟨K, K, C, M⟩ p q c m))
          = ∑ p in Finset.range K, ∑ c in Finset.range C, ∑ q in Finset.range K,
            X (xoffC ⟨N, H, W, C⟩ n (h + p) (w + q) c) * Mask (woff ⟨K, K, C, M⟩ p q c m)
        from Finset.sum_congr rfl (fun p _ => Finset.sum_comm)]
      exact Finset.sum_comm]
    refine Finset.sum_congr rfl (fun c hcm => Finset.sum_congr rfl (fun p hpm =>
      Finset.sum_congr rfl (fun q hqm => ?_)))
    have hc := Finset.mem_range.mp hcm
    have hp := Finset.mem_range.mp hpm
    have hq := Finset.mem_range.mp hqm
    rw [show m * (C * K * K) + ((c * K + p) * K + q)
        = m * C * K * K + c * K * K + p * K + q by ring]
    rw [show ((c * K + p) * K + q) * ((H - K + 1) * (W - K + 1)) + (h * (W - K + 1) + w)
        = (c * (K * K) + p * K + q) * ((H - K + 1) * (W - K + 1))
          + (h * (W - K + 1) + w) by ring]
    rw [unrollFilters_at C M K Mask Wu0 hc hm hp hq]
    rw [unroll_at C H W K n X Xprev hc hp hq hh hw]
    unfold xoffC woff
    dsimp only
    exact mul_comm _ _
  simp only [convLayer_forward, yoff]
  rw [rerollOutput_at M N (H - K + 1) (W - K + 1) _ Y0 hn hm hh hw]
  refine foldl_obs_computes (List.range N) _
    (fun st : Buf × Buf => st.2 (n * M * (H - K + 1) * (W - K + 1)
      + m * (H - K + 1) * (W - K + 1) + h * (W - K + 1) + w))
    (reluQ (convSum X ⟨N, H, W, C⟩ Mask ⟨K, K, C, M⟩ n h w m)) ?_ ?_ (Xu0, Yu0)
  · intro n' _ st hst
    dsimp only
    by_cases hne : n' = n
    · subst hne
      exact hwrite st.1 st.2
    · have hframe := mmLaunch_frame (unrollFilters C M K Mask Wu0)
        (unroll C H W K n' X st.1) st.2
        ⟨M, C * K * K, C * K * K, (H - K + 1) * (W - K + 1), M, (H - K + 1) * (W - K + 1)⟩
        (gridDim ((H - K + 1) * (W - K + 1))) (gridDim M) (sh n')
        (n' * ((H - K + 1) * (W - K + 1) * M))
        (n * M * (H - K + 1) * (W - K + 1) + m * (H - K + 1) * (W - K + 1)
          + h * (W - K + 1) + w)
        (by
          intro row col hrow hcol heq
          dsimp only at hrow hcol heq
          have e : (n * M + m) * ((H - K + 1) * (W - K + 1)) + (h * (W - K + 1) + w)
              = (n' * M + row) * ((H - K + 1) * (W - K + 1)) + col := by
            rw [show (n * M + m) * ((H - K + 1) * (W - K + 1)) + (h * (W - K + 1) + w)
                = n * M * (H - K + 1) * (W - K + 1) + m * (H - K + 1) * (W - K + 1)
                  + h * (W - K + 1) + w by ring]
            rw [show (n' * M + row) * ((H - K + 1) * (W - K + 1)) + col
                = n' * ((H - K + 1) * (W - K + 1) * M) + (row * ((H - K + 1) * (W - K + 1))
                  + col) by ring]
            exact heq
          obtain ⟨e2, _⟩ := mul_add_inj e (rm2_lt hh hw) hcol
          obtain ⟨e3, _⟩ := mul_add_inj e2 hm hrow
          exact hne e3.symm)
      rw [hframe]
      exact hst
  · refine ⟨n, List.mem_range.mpr hn, fun st => ?_⟩
    dsimp only
    exact hwrite st.1 st.2

/-- Counterexample to C2 as stated: the tiled multiply inside the unroll path
fuses a ReLU clamp, so for the 1×1×1×1 instance X = [1], W = [−1] the unroll
path yields 0 while the direct-form convolution yields −1 — not equal under
any accumulation-order tolerance. -/
theorem C2_counterexample :
    ¬ (convLayer_forward 1 1 1 1 1 1 cOne cNegOne ⟨1, 1 - 1 + 1, 1 - 1 + 1, 1⟩
        Buf.zero Buf.zero Buf.zero Buf.zero (fun _ _ _ => garbage99)
        (yoff ⟨1, 1 - 1 + 1, 1 - 1 + 1, 1⟩ 0 0 0 0)
      = conv_forward_valid cOne ⟨1, 1, 1, 1⟩ cNegOne ⟨1, 1, 1, 1⟩ Buf.zero
          ⟨1, 1 - 1 + 1, 1 - 1 + 1, 1⟩ (yoff ⟨1, 1 - 1 + 1, 1 - 1 + 1, 1⟩ 0 0 0 0)) := by
  rw [convLayer_forward_at cOne cNegOne Buf.zero Buf.zero Buf.zero Buf.zero
      (fun _ _ _ => garbage99) 1 1 1 1 1 1 (by norm_num) (by norm_num) (by norm_num)
      (by norm_num),
    conv_forward_valid_at cOne cNegOne Buf.zero ⟨1, 1, 1, 1⟩ ⟨1, 1, 1, 1⟩
      ⟨1, 1 - 1 + 1, 1 - 1 + 1, 1⟩ (by norm_num) (by norm_num) (by norm_num) (by norm_num)]
  norm_num [convSum, reluQ, cOne, cNegOne, Buf.zero, Finset.sum_range_succ, xoffC, woff]

/-- C2 (amended): for every valid (X, W) with C, K, M ≥ 1, the
unroll-and-multiply path (filter unroll, per-sample input unroll, tiled
matrix multiply, output reroll) produces at every in-range output element
the ReLU clamp of the direct-form six-nested-loop convolution on the same
operands — equal to the direct form exactly where the latter is
nonnegative — for arbitrary contents of all transient buffers and shared
tiles. -/
theorem C2_unroll_matches_direct (X Mask Xu0 Wu0 Yu0 Y0 : Buf)
    (sh : Nat → Nat → Nat → MMState) (N M C H W K : Nat) {n h w m : Nat}
    (hC : 1 ≤ C) (hK : 1 ≤ K)
    (hn : n < N) (hh : h < H - K + 1) (hw : w < W - K + 1) (hm : m < M) :
    convLayer_forward N M C H W K X Mask ⟨N, H - K + 1, W - K + 1, M⟩ Xu0 Wu0 Yu0 Y0 sh
        (yoff ⟨N, H - K + 1, W - K + 1, M⟩ n h w m)
      = reluQ (conv_forward_valid X ⟨N, H, W, C⟩ Mask ⟨K, K, C, M⟩ Buf.zero
          ⟨N, H - K + 1, W - K + 1, M⟩ (yoff ⟨N, H - K + 1, W - K + 1, M⟩ n h w m)) := by
  rw [convLayer_forward_at X Mask Xu0 Wu0 Yu0 Y0 sh N M C H W K hn hh hw hm]
  congr 1
  rw [conv_forward_valid_at X Mask Buf.zero ⟨N, H, W, C⟩ ⟨K, K, C, M⟩
    ⟨N, H - K + 1, W - K + 1, M⟩ hn hh hw hm]
  simp [Buf.zero]

/-- Witness for C2 at the 1×1×1×1 instance X = [1], W = [1], with non-zero
garbage in every transient buffer and shared tile. -/
theorem C2_unroll_matches_direct_witness :
    convLayer_forward 1 1 1 1 1 1 cOne cOne ⟨1, 1 - 1 + 1, 1 - 1 + 1, 1⟩ cY5 cY5 cY5 cY5
        (fun _ _ _ => garbage99) (yoff ⟨1, 1 - 1 + 1, 1 - 1 + 1, 1⟩ 0 0 0 0)
      = reluQ (conv_forward_valid cOne ⟨1, 1, 1, 1⟩ cOne ⟨1, 1, 1, 1⟩ Buf.zero
          ⟨1, 1 - 1 + 1, 1 - 1 + 1, 1⟩ (yoff ⟨1, 1 - 1 + 1, 1 - 1 + 1, 1⟩ 0 0 0 0)) :=
  C2_unroll_matches_direct cOne cOne cY5 cY5 cY5 cY5 (fun _ _ _ => garbage99) 1 1 1 1 1 1
    (by norm_num) (by norm_num) (by norm_num) (by norm_num) (by norm_num) (by norm_num)

end CNN
